import Mathlib

/-!
# Verification of the osmem user-space memory allocator

Shallow embedding of `src/src/osmem.c` (and the `ALIGN` macro of
`src/tests/src/osmem.h`).  The program-break heap is modelled as a list of
blocks that are physically adjacent starting at offset 0 (the initial break);
a block's address is the sum of the sizes of the blocks before it.  Mapped
regions live in a separate list, mirroring the fact that they are not on the
registry.  `size_t` arithmetic is `Nat` with an explicit `% 2^64`; the C
variable `int aligned_size` of `os_malloc`/`os_calloc` is modelled with an
explicit 32-bit signed truncation.  Ghost fields (`unmaps`, `copies`, `ub`)
record the munmap system calls issued, the byte counts of the `memcpy` calls
of `os_realloc`, and whether the run performed an out-of-bounds access.
-/

namespace Osmem

/-! ## Machine arithmetic -/

/-- Width of `size_t`. -/
def W64 : Nat := 2 ^ 64

/-- `size_t` addition. -/
def add64 (a b : Nat) : Nat := (a + b) % W64

/-- `size_t` subtraction. -/
def sub64 (a b : Nat) : Nat := (a % W64 + (W64 - b % W64)) % W64

/-- The `ALIGN` macro of `osmem.h`: `(((size) + (ALIGNMENT-1)) & ~(ALIGNMENT-1))`
with `ALIGNMENT = 8`, computed in `size_t`.  Clearing the low three bits is
division and multiplication by 8. -/
def align8 (n : Nat) : Nat := (add64 n 7) / 8 * 8

/-- Modelled from the spec: `sizeof(struct block_meta)`.  The structure is
declared in `helpers.h`, which is not part of the sources; the spec describes a
header holding `size`, `status` and `next`, whose natural size on the 64-bit
target is 24 bytes (8 + 4-padded-to-8 + 8).  No claim depends on the exact
value, only on `align8 szMeta` being a multiple of 8. -/
def szMeta : Nat := 24

/-- `ALIGN(sizeof(block_meta))`: the aligned header size. -/
def HDR : Nat := align8 szMeta

/-- `MMAP_THRESHOLD` from `osmem.h`. -/
def MMAP_THRESHOLD : Nat := 131072

/-- Modelled from the spec: `sysconf(_SC_PAGESIZE)`, the system page size used
as the `os_calloc` backing-store threshold; the spec says "typically 4 KiB". -/
def PAGE_SIZE : Nat := 4096

/-- `ALIGN(sizeof(block_meta) + ALIGN(1))`: the split headroom used in every
`split_block` guard. -/
def SPLIT_PAD : Nat := align8 (szMeta + align8 1)

/-- Value of the C `int` after `int aligned_size = ALIGN(sizeof(block_meta)) + ALIGN(size);`
(the `size_t` sum truncated to 32 bits, two's complement). -/
def toInt32 (n : Nat) : Int :=
  let m : Nat := n % 2 ^ 32
  if m < 2 ^ 31 then (m : Int) else (m : Int) - 2 ^ 32

/-- An `Int` read back as a `size_t` (sign extension to 64 bits for the
values produced by `toInt32`). -/
def sizeTOfInt (i : Int) : Nat := (i % ((2 : Int) ^ 64)).toNat

/-- The `int aligned_size` local of `os_malloc` and `os_calloc`. -/
def alignedInt (size : Nat) : Int := toInt32 (add64 (align8 szMeta) (align8 size))

/-- `aligned_size` as it reads when converted back to `size_t` (arguments of
`find_best_fit`, `request_space_malloc`, `split_block`, comparisons with block
sizes). -/
def alignedSz (size : Nat) : Nat := sizeTOfInt (alignedInt size)

/-- `size_t aligned_size = ALIGN(size) + ALIGN(sizeof(block_meta));` of
`os_realloc` (no `int` truncation there). -/
def alignedR (size : Nat) : Nat := add64 (align8 size) (align8 szMeta)

/-! ## Data model -/

/-- Registry block status.  `STATUS_MAPPED` blocks are never on the registry;
they are modelled by the separate `MBlock` list. -/
inductive Status where
  | free
  | alloc
deriving DecidableEq

/-- A registry block: total size (header included) and payload bytes.
The `next` pointer of the C structure is the list structure itself. -/
structure Block where
  size : Nat
  status : Status
  data : List Nat
deriving DecidableEq

/-- An anonymously mapped block (`STATUS_MAPPED`), identified by a ghost id. -/
structure MBlock where
  id : Nat
  size : Nat
  data : List Nat
deriving DecidableEq

/-- A payload pointer as returned to the caller: either an offset from the
initial break (heap) or a mapped region. -/
inductive Ptr where
  | heap (addr : Nat)
  | mapped (id : Nat)
deriving DecidableEq

/-- Ghost record of a `munmap(addr, size)` call. -/
inductive UnmapCall where
  | onHeap (start size : Nat)
  | onMapped (id size : Nat)
deriving DecidableEq

/-- Whole-allocator state.  `heap` is the registry (`global_base` list),
`mapped` the off-registry mapped blocks.  `unmaps`, `copies` and `ub` are
ghost: munmap calls issued, `memcpy` byte counts of `os_realloc`, and whether
undefined behaviour (out-of-bounds access, null dereference, mapped region
merged into the registry) occurred. -/
structure AllocState where
  heap : List Block
  mapped : List MBlock
  nextId : Nat
  unmaps : List UnmapCall
  copies : List Nat
  ub : Bool
deriving DecidableEq

/-- The empty initial state (`global_base == NULL`, nothing mapped). -/
def init : AllocState := ⟨[], [], 0, [], [], false⟩

/-- Address of the block at index `i`: the heap is contiguous from offset 0. -/
def startOf (l : List Block) (i : Nat) : Nat := ((l.take i).map Block.size).sum

/-- One past the end of the heap: the current program break (as an offset). -/
def heapEnd (l : List Block) : Nat := (l.map Block.size).sum

/-- `get_block_ptr`/field access: find the block whose header starts at
`addr - HDR`, returning its index, start offset and value. -/
def lookupGo (addr : Nat) : Nat → Nat → List Block → Option (Nat × Nat × Block)
  | _, _, [] => none
  | i, o, b :: rest =>
    if o + HDR = addr then some (i, o, b) else lookupGo addr (i + 1) (o + b.size) rest

/-- Find the registry block a payload pointer refers to. -/
def lookupHeap (l : List Block) (addr : Nat) : Option (Nat × Nat × Block) :=
  lookupGo addr 0 0 l

/-- Find a mapped block by id. -/
def lookupMapped (ms : List MBlock) (id : Nat) : Option MBlock :=
  ms.find? (fun m => m.id = id)

/-- The payload bytes a pointer refers to. -/
def payloadAt (s : AllocState) (p : Ptr) : Option (List Nat) :=
  match p with
  | .heap addr => (lookupHeap s.heap addr).map (fun t => t.2.2.data)
  | .mapped id => (lookupMapped s.mapped id).map MBlock.data

/-! ## Registry primitives (static helpers of osmem.c) -/

/-- `prev->size += current->size; prev->next = current->next;`.  The absorbed
block's header becomes 24 stale bytes inside the merged payload; the model
keeps them as zeros (no claim reads them). -/
def mergeB (p c : Block) : Block :=
  { size := add64 p.size c.size
    status := p.status
    data := p.data ++ List.replicate HDR 0 ++ c.data }

/-- `split_block(block, size)`: the block becomes `[prefix of size, FREE tail]`.
The new header is carved out of the old payload at offset `size`. -/
def split_block (b : Block) (size : Nat) : List Block :=
  [ { size := size, status := b.status, data := b.data.take (size - HDR) },
    { size := sub64 b.size size, status := .free, data := b.data.drop size } ]

/-- Replace the block at index `i` by a list of blocks (in-place surgery). -/
def replaceAt (l : List Block) (i : Nat) (bs : List Block) : List Block :=
  l.take i ++ bs ++ l.drop (i + 1)

/-- `find_best_fit`: linear scan recording the best (smallest sufficient FREE)
block seen so far; strict `<` means ties keep the earlier block.  Returns the
index and the block. -/
def bestFitAux (size : Nat) : List Block → Nat → Option (Nat × Block) → Option (Nat × Block)
  | [], _, best => best
  | b :: rest, i, best =>
    if b.status = .free ∧ size ≤ b.size then
      match best with
      | none => bestFitAux size rest (i + 1) (some (i, b))
      | some (bi, bb) =>
        if b.size < bb.size then bestFitAux size rest (i + 1) (some (i, b))
        else bestFitAux size rest (i + 1) (some (bi, bb))
    else bestFitAux size rest (i + 1) best

/-- `find_best_fit(size)` on a registry. -/
def find_best_fit (l : List Block) (size : Nat) : Option (Nat × Block) :=
  bestFitAux size l 0 none

/-- The loop of `coalesce_blocks`, translated iteration by iteration.
State: `done` = nodes strictly before `prev` (finalized), `prev` = the node
the C `prev` points to, the list argument = the nodes from `current` on.
A backward merge (`prev` and `current` both FREE) replaces `prev` in place;
the forward merge absorbs at most one successor per iteration, exactly as the
C code does. -/
def coalLoop : List Block → Option Block → List Block → List Block × Option Block
  | done, prev, [] => (done ++ prev.toList, prev)
  | done, prev, [c] =>
    if c.status = .free then
      match prev with
      | some p =>
        if p.status = .free then (done ++ [mergeB p c], some (mergeB p c))
        else (done ++ [p, c], some c)
      | none => (done ++ [c], some c)
    else (done ++ prev.toList ++ [c], some c)
  | done, prev, c :: r :: rest2 =>
    if c.status = .free then
      match prev with
      | some p =>
        if p.status = .free then
          if r.status = .free then coalLoop done (some (mergeB (mergeB p c) r)) rest2
          else coalLoop done (some (mergeB p c)) (r :: rest2)
        else
          if r.status = .free then coalLoop (done ++ [p]) (some (mergeB c r)) rest2
          else coalLoop (done ++ [p]) (some c) (r :: rest2)
      | none =>
        if r.status = .free then coalLoop done (some (mergeB c r)) rest2
        else coalLoop done (some c) (r :: rest2)
    else coalLoop (done ++ prev.toList) (some c) (r :: rest2)

/-- `coalesce_blocks()`: returns the coalesced registry and the C return value
(the `prev` pointer after the loop, i.e. the tail). -/
def coalesce_blocks (l : List Block) : List Block × Option Block :=
  coalLoop [] none l

/-- The loop of `realloc_expand`: absorb consecutive FREE successors. -/
def absorbFree : Block → List Block → Block × List Block
  | b, [] => (b, [])
  | b, n :: rest =>
    if n.status = .free then absorbFree (mergeB b n) rest else (b, n :: rest)

/-- `memset(payload, 0, n)` on a payload: overwrites the first `n` bytes.
Writing past the block's payload is undefined behaviour; the model truncates
and the callers raise the `ub` flag in that case. -/
def zeroWrite (d : List Nat) (n : Nat) : List Nat :=
  List.replicate (min n d.length) 0 ++ d.drop n

/-- `memcpy` source read of `n` bytes from a payload `d`: bytes past the end
of `d` are an out-of-bounds read (flagged by callers); the model pads them
with zeros (no claim reads them). -/
def padTake (d : List Nat) (n : Nat) : List Nat :=
  d.take n ++ List.replicate (n - d.length) 0

/-- `memcpy(dst_payload, src, bytes.length)`: overwrite the payload the
pointer refers to. -/
def writePayload (s : AllocState) (p : Ptr) (bytes : List Nat) : AllocState :=
  match p with
  | .heap addr =>
    match lookupHeap s.heap addr with
    | some (i, _, b) =>
      { s with heap := s.heap.set i { b with data := bytes ++ b.data.drop bytes.length } }
    | none => { s with ub := true }
  | .mapped id =>
    { s with mapped := s.mapped.map (fun m =>
        if m.id = id then { m with data := bytes ++ m.data.drop bytes.length } else m) }

/-! ## Public operations -/

/-- `first_time_prealloc()`: one FREE block of `MMAP_THRESHOLD` bytes at the
old break. -/
def preallocBlock : Block :=
  { size := MMAP_THRESHOLD, status := .free, data := List.replicate (MMAP_THRESHOLD - HDR) 0 }

/-- `os_malloc`. -/
def os_malloc (s : AllocState) (size : Nat) : AllocState × Option Ptr :=
  if size = 0 then (s, none) else
  let ai : Int := alignedInt size
  let a : Nat := alignedSz size
  -- if (!global_base && aligned_size < MMAP_THRESHOLD) first_time_prealloc();
  let s0 := if s.heap = [] ∧ ai < 131072 then { s with heap := [preallocBlock] } else s
  let co := coalesce_blocks s0.heap
  let h1 := co.1
  match find_best_fit h1 a with
  | some (i, b) =>
    -- split if block->size >= aligned_size + ALIGN(sizeof(block_meta) + ALIGN(1))
    let h2 := if add64 a SPLIT_PAD ≤ b.size then replaceAt h1 i (split_block b a) else h1
    let h3 := match h2[i]? with
              | some b' => h2.set i { b' with status := .alloc }
              | none => h2
    ({ s0 with heap := h3 }, some (.heap (startOf h1 i + HDR)))
  | none =>
    match co.2 with
    | some last =>
      if last.status = .free then
        -- in-place expansion: block = request_space_malloc(aligned_size - last->size)
        let req := sub64 a last.size
        let i := h1.length - 1
        let lb : Block := { last with
                            size := add64 last.size req
                            data := last.data ++ List.replicate req 0 }
        let h2 := h1.set i lb
        let h3 := if add64 a SPLIT_PAD ≤ lb.size then replaceAt h2 i (split_block lb a) else h2
        let h4 := match h3[i]? with
                  | some b' => h3.set i { b' with status := .alloc }
                  | none => h3
        -- req >= MMAP_THRESHOLD makes request_space_malloc return a MAPPED
        -- region, whose size is then merged into the registry tail: the
        -- registry no longer describes contiguous memory (flagged as ub).
        ({ s0 with heap := h4, ub := s0.ub || decide (MMAP_THRESHOLD ≤ req) },
         some (.heap (startOf h1 i + HDR)))
      else
        -- fresh block from request_space_malloc(aligned_size)
        if a < MMAP_THRESHOLD then
          let nb : Block := { size := a, status := .alloc, data := List.replicate (a - HDR) 0 }
          -- last->next = block; (the STATUS_FREE sub-branch is dead here:
          -- this path is only reached when the tail is not FREE)
          ({ s0 with heap := h1 ++ [nb] }, some (.heap (heapEnd h1 + HDR)))
        else
          let m : MBlock := { id := s0.nextId, size := a, data := List.replicate (a - HDR) 0 }
          ({ s0 with heap := h1, mapped := s0.mapped ++ [m], nextId := s0.nextId + 1 },
           some (.mapped s0.nextId))
    | none =>
      -- registry empty: prealloc did not run, so aligned_size >= MMAP_THRESHOLD
      if a < MMAP_THRESHOLD then
        -- unreachable: the C code would dereference the NULL `last` here
        let nb : Block := { size := a, status := .alloc, data := List.replicate (a - HDR) 0 }
        ({ s0 with heap := h1 ++ [nb], ub := true }, some (.heap (heapEnd h1 + HDR)))
      else
        let m : MBlock := { id := s0.nextId, size := a, data := List.replicate (a - HDR) 0 }
        ({ s0 with heap := h1, mapped := s0.mapped ++ [m], nextId := s0.nextId + 1 },
         some (.mapped s0.nextId))

/-- `os_free`. -/
def os_free (s : AllocState) (p : Option Ptr) : AllocState :=
  match p with
  | none => s
  | some (.heap addr) =>
    match lookupHeap s.heap addr with
    | some (i, o, b) =>
      if b.status = .alloc then
        { s with heap := s.heap.set i { b with status := .free } }
      else
        -- status != STATUS_ALLOC: munmap(block, block->size) on registry memory
        { s with unmaps := s.unmaps ++ [.onHeap o b.size] }
    | none => { s with ub := true }
  | some (.mapped id) =>
    match lookupMapped s.mapped id with
    | some m =>
      { s with mapped := s.mapped.filter (fun x => x.id ≠ id),
               unmaps := s.unmaps ++ [.onMapped id m.size] }
    | none => { s with ub := true }

/-- `os_calloc`. -/
def os_calloc (s : AllocState) (nmemb size0 : Nat) : AllocState × Option Ptr :=
  if nmemb = 0 ∨ size0 = 0 then (s, none) else
  -- size *= nmemb;  (size_t wrap-around)
  let size := (size0 * nmemb) % W64
  let ai : Int := alignedInt size
  let a : Nat := alignedSz size
  let s0 := if s.heap = [] ∧ ai < (PAGE_SIZE : Int) then { s with heap := [preallocBlock] } else s
  let co := coalesce_blocks s0.heap
  let h1 := co.1
  match find_best_fit h1 a with
  | some (i, b) =>
    let h2 := if add64 a SPLIT_PAD ≤ b.size then replaceAt h1 i (split_block b a) else h1
    let h3 := match h2[i]? with
              | some b' => h2.set i { b' with status := .alloc, data := zeroWrite b'.data size }
              | none => h2
    let ub3 := match h2[i]? with
               | some b' => decide (b'.data.length < size)
               | none => false
    ({ s0 with heap := h3, ub := s0.ub || ub3 },
     some (.heap (startOf h1 i + HDR)))
  | none =>
    match co.2 with
    | some last =>
      if last.status = .free then
        let req := sub64 a last.size
        let i := h1.length - 1
        let lb : Block := { last with
                            size := add64 last.size req
                            data := last.data ++ List.replicate req 0 }
        let h2 := h1.set i lb
        let h3 := if add64 a SPLIT_PAD ≤ lb.size then replaceAt h2 i (split_block lb a) else h2
        let h4 := match h3[i]? with
                  | some b' => h3.set i { b' with status := .alloc, data := zeroWrite b'.data size }
                  | none => h3
        let ub4 := match h3[i]? with
                   | some b' => decide (b'.data.length < size)
                   | none => false
        ({ s0 with heap := h4,
                   ub := s0.ub || decide (PAGE_SIZE ≤ req) || ub4 },
         some (.heap (startOf h1 i + HDR)))
      else
        if a < PAGE_SIZE then
          let nb : Block := { size := a, status := .alloc,
                              data := zeroWrite (List.replicate (a - HDR) 0) size }
          ({ s0 with heap := h1 ++ [nb],
                     ub := s0.ub || decide (a - HDR < size) },
           some (.heap (heapEnd h1 + HDR)))
        else
          let m : MBlock := { id := s0.nextId, size := a,
                              data := zeroWrite (List.replicate (a - HDR) 0) size }
          ({ s0 with heap := h1, mapped := s0.mapped ++ [m], nextId := s0.nextId + 1,
                     ub := s0.ub || decide (a - HDR < size) },
           some (.mapped s0.nextId))
    | none =>
      if a < PAGE_SIZE then
        let nb : Block := { size := a, status := .alloc,
                            data := zeroWrite (List.replicate (a - HDR) 0) size }
        ({ s0 with heap := h1 ++ [nb], ub := true }, some (.heap (heapEnd h1 + HDR)))
      else
        let m : MBlock := { id := s0.nextId, size := a,
                            data := zeroWrite (List.replicate (a - HDR) 0) size }
        ({ s0 with heap := h1, mapped := s0.mapped ++ [m], nextId := s0.nextId + 1,
                   ub := s0.ub || decide (a - HDR < size) },
         some (.mapped s0.nextId))

/-- Size of the block a pointer refers to (`get_block_ptr(ptr)->size`). -/
def ptrBlockSize (s : AllocState) (p : Ptr) : Nat :=
  match p with
  | .heap addr => ((lookupHeap s.heap addr).map (fun t => t.2.2.size)).getD 0
  | .mapped id => ((lookupMapped s.mapped id).map MBlock.size).getD 0

/-- `os_realloc`. -/
def os_realloc (s : AllocState) (p : Option Ptr) (size : Nat) : AllocState × Option Ptr :=
  let a := alignedR size
  match p with
  | none => os_malloc s size
  | some ptr =>
    if size = 0 then (os_free s (some ptr), none) else
    match ptr with
    | .mapped id =>
      match lookupMapped s.mapped id with
      | none => ({ s with ub := true }, none)
      | some m =>
        -- block->status == STATUS_FREE is false for a mapped block
        if m.size = a then (s, some ptr) else
        -- mapped branch: allocate, copy new_block->size - HDR bytes, free old
        let r1 := os_malloc s size
        match r1.2 with
        | none => (r1.1, none)
        | some q =>
          let cnt := sub64 (ptrBlockSize r1.1 q) HDR
          let s2 := writePayload r1.1 q (padTake m.data cnt)
          let s3 := os_free s2 (some ptr)
          ({ s3 with copies := s3.copies ++ [cnt],
                     ub := s3.ub || decide (m.data.length < cnt) }, some q)
    | .heap addr =>
      match lookupHeap s.heap addr with
      | none => ({ s with ub := true }, none)
      | some (i, _, b) =>
        if b.status = .free then (s, none) else
        if b.size = a then (s, some ptr) else
        -- shrink: split when the remainder affords a minimal block
        if a ≤ b.size ∧ add64 a SPLIT_PAD ≤ b.size then
          ({ s with heap := replaceAt s.heap i (split_block b a) }, some ptr)
        else
        -- coalesce, then try to expand in place
        let h1 := (coalesce_blocks s.heap).1
        match lookupHeap h1 addr with
        | none => ({ s with heap := h1, ub := true }, none)
        | some (i', _, b1) =>
          let ex := absorbFree b1 (h1.drop (i' + 1))
          let h2 := h1.take i' ++ ex.1 :: ex.2
          if a ≤ ex.1.size then
            let h3 := if add64 a SPLIT_PAD ≤ ex.1.size
                      then h1.take i' ++ split_block ex.1 a ++ ex.2 else h2
            ({ s with heap := h3 }, some ptr)
          else
            -- move: allocate, copy new_block->size - HDR bytes, free old
            let sMid := { s with heap := h2 }
            let r1 := os_malloc sMid size
            match r1.2 with
            | none => (r1.1, none)
            | some q =>
              let cnt := sub64 (ptrBlockSize r1.1 q) HDR
              let s2 := writePayload r1.1 q (padTake ex.1.data cnt)
              let s3 := os_free s2 (some ptr)
              ({ s3 with copies := s3.copies ++ [cnt],
                         ub := s3.ub || decide (ex.1.data.length < cnt) }, some q)


/-! ## The coalescing pass, reformulated

`runs` is a straightforward left-to-right merge of adjacent FREE runs; the
bridge lemma below proves that the translated C loop `coalLoop` computes
exactly `runs` and returns its last element. -/

/-- Merge adjacent FREE blocks, left to right, starting from a current block. -/
def runs (cur : Block) : List Block → List Block
  | [] => [cur]
  | c :: rest =>
    if cur.status = .free ∧ c.status = .free then runs (mergeB cur c) rest
    else cur :: runs c rest

/-- `runs` of the whole registry. -/
def runsM : List Block → List Block
  | [] => []
  | c :: rest => runs c rest

theorem mergeB_status (p c : Block) : (mergeB p c).status = p.status := rfl

theorem runs_ne_nil (p : Block) (l : List Block) : runs p l ≠ [] := by
  induction l generalizing p with
  | nil => simp [runs]
  | cons c rest ih =>
    by_cases h : p.status = .free ∧ c.status = .free
    · simpa [runs, h] using ih (mergeB p c)
    · simp [runs, h]

theorem getLast?_cons_of_ne_nil {α : Type} (a : α) {l : List α} (h : l ≠ []) :
    (a :: l).getLast? = l.getLast? := by
  cases l with
  | nil => exact absurd rfl h
  | cons x xs => simp [List.getLast?_cons_cons]

/-- The C loop with a pending `prev` node computes `runs prev rest`. -/
theorem coalLoop_some (n : Nat) : ∀ rest : List Block, rest.length ≤ n →
    ∀ (done : List Block) (p : Block),
    coalLoop done (some p) rest = (done ++ runs p rest, (runs p rest).getLast?) := by
  induction n with
  | zero =>
    intro rest hr done p
    have : rest = [] := List.length_eq_zero.mp (Nat.le_zero.mp hr)
    subst this
    simp [coalLoop, runs]
  | succ n ih =>
    intro rest hr done p
    match rest with
    | [] => simp [coalLoop, runs]
    | [c] =>
      by_cases hc : c.status = .free
      · by_cases hp : p.status = .free
        · simp [coalLoop, hc, hp, runs]
        · simp [coalLoop, hc, hp, runs]
      · simp [coalLoop, hc, runs]
    | c :: r :: rest2 =>
      have hr2 : rest2.length ≤ n := by
        simpa using Nat.le_of_succ_le_succ (Nat.le_of_succ_le hr)
      have hrr : (r :: rest2).length ≤ n := by
        simpa using Nat.le_of_succ_le_succ hr
      by_cases hc : c.status = .free
      · by_cases hp : p.status = .free
        · by_cases hrf : r.status = .free
          · rw [show coalLoop done (some p) (c :: r :: rest2)
                  = coalLoop done (some (mergeB (mergeB p c) r)) rest2 by
                simp [coalLoop, hc, hp, hrf]]
            rw [ih rest2 hr2]
            have : runs p (c :: r :: rest2) = runs (mergeB (mergeB p c) r) rest2 := by
              simp [runs, hp, hc, hrf, mergeB_status]
            rw [this]
          · rw [show coalLoop done (some p) (c :: r :: rest2)
                  = coalLoop done (some (mergeB p c)) (r :: rest2) by
                simp [coalLoop, hc, hp, hrf]]
            rw [ih (r :: rest2) hrr]
            have : runs p (c :: r :: rest2) = runs (mergeB p c) (r :: rest2) := by
              simp [runs, hp, hc]
            rw [this]
        · by_cases hrf : r.status = .free
          · rw [show coalLoop done (some p) (c :: r :: rest2)
                  = coalLoop (done ++ [p]) (some (mergeB c r)) rest2 by
                simp [coalLoop, hc, hp, hrf]]
            rw [ih rest2 hr2]
            have h1 : runs p (c :: r :: rest2) = p :: runs (mergeB c r) rest2 := by
              simp [runs, hp, hc, hrf]
            rw [h1, getLast?_cons_of_ne_nil _ (runs_ne_nil _ _)]
            simp
          · rw [show coalLoop done (some p) (c :: r :: rest2)
                  = coalLoop (done ++ [p]) (some c) (r :: rest2) by
                simp [coalLoop, hc, hp, hrf]]
            rw [ih (r :: rest2) hrr]
            have h1 : runs p (c :: r :: rest2) = p :: runs c (r :: rest2) := by
              simp [runs, hp, hc, hrf]
            rw [h1, getLast?_cons_of_ne_nil _ (runs_ne_nil _ _)]
            simp
      · rw [show coalLoop done (some p) (c :: r :: rest2)
              = coalLoop (done ++ [p]) (some c) (r :: rest2) by
            simp [coalLoop, hc]]
        rw [ih (r :: rest2) hrr]
        have h1 : runs p (c :: r :: rest2) = p :: runs c (r :: rest2) := by
          simp [runs, hc]
        rw [h1, getLast?_cons_of_ne_nil _ (runs_ne_nil _ _)]
        simp

/-- The coalescing pass computes `runsM` and returns its last element. -/
theorem coalesce_blocks_eq (l : List Block) :
    coalesce_blocks l = (runsM l, (runsM l).getLast?) := by
  match l with
  | [] => simp [coalesce_blocks, coalLoop, runsM]
  | [c] =>
    by_cases hc : c.status = .free <;> simp [coalesce_blocks, coalLoop, hc, runsM, runs]
  | c :: r :: rest2 =>
    show coalLoop [] none (c :: r :: rest2) = _
    by_cases hc : c.status = .free
    · by_cases hrf : r.status = .free
      · rw [show coalLoop [] none (c :: r :: rest2)
              = coalLoop [] (some (mergeB c r)) rest2 by simp [coalLoop, hc, hrf]]
        rw [coalLoop_some rest2.length rest2 le_rfl]
        have : runsM (c :: r :: rest2) = runs (mergeB c r) rest2 := by
          simp [runsM, runs, hc, hrf]
        rw [this]; simp
      · rw [show coalLoop [] none (c :: r :: rest2)
              = coalLoop [] (some c) (r :: rest2) by simp [coalLoop, hc, hrf]]
        rw [coalLoop_some (r :: rest2).length _ le_rfl]
        have : runsM (c :: r :: rest2) = runs c (r :: rest2) := rfl
        rw [this]; simp
    · rw [show coalLoop [] none (c :: r :: rest2)
            = coalLoop [] (some c) (r :: rest2) by simp [coalLoop, hc]]
      rw [coalLoop_some (r :: rest2).length _ le_rfl]
      have : runsM (c :: r :: rest2) = runs c (r :: rest2) := rfl
      rw [this]; simp

/-! ## Adjacent-FREE freedom -/

/-- No two consecutive blocks are both FREE. -/
def noAdjFree (l : List Block) : Prop :=
  List.Chain' (fun a b => ¬(a.status = .free ∧ b.status = .free)) l

theorem runs_head_status (p : Block) (l : List Block) :
    ∃ q t, runs p l = q :: t ∧ q.status = p.status := by
  induction l generalizing p with
  | nil => exact ⟨p, [], rfl, rfl⟩
  | cons c rest ih =>
    by_cases h : p.status = .free ∧ c.status = .free
    · obtain ⟨q, t, hq, hs⟩ := ih (mergeB p c)
      exact ⟨q, t, by simpa [runs, h] using hq, by rw [hs, mergeB_status, h.1]⟩
    · exact ⟨p, runs c rest, by simp [runs, h], rfl⟩

theorem runs_noAdjFree (p : Block) (l : List Block) : noAdjFree (runs p l) := by
  induction l generalizing p with
  | nil => simp [runs, noAdjFree]
  | cons c rest ih =>
    by_cases h : p.status = .free ∧ c.status = .free
    · simpa [runs, h] using ih (mergeB p c)
    · rw [show runs p (c :: rest) = p :: runs c rest by simp [runs, h]]
      obtain ⟨q, t, hq, hs⟩ := runs_head_status c rest
      rw [hq]
      refine List.Chain'.cons ?_ (by rw [← hq]; exact ih c)
      rw [hs]; exact h

theorem runsM_noAdjFree (l : List Block) : noAdjFree (runsM l) := by
  cases l with
  | nil => simp [runsM, noAdjFree]
  | cons c rest => exact runs_noAdjFree c rest

theorem runsM_eq_nil_iff (l : List Block) : runsM l = [] ↔ l = [] := by
  cases l with
  | nil => simp [runsM]
  | cons c rest => simpa [runsM] using runs_ne_nil c rest

/-- First `n` payload bytes exist and are all zero. -/
def zerosUpTo (d : List Nat) (n : Nat) : Prop :=
  n ≤ d.length ∧ d.take n = List.replicate n 0

/-- C5: a single call to the coalescing pass leaves no two adjacent FREE
blocks on the registry, and returns the tail (last block) of the registry,
null exactly when the registry is empty. -/
theorem c5_coalesce_correct (l : List Block) :
    noAdjFree (coalesce_blocks l).1 ∧
    (coalesce_blocks l).2 = (coalesce_blocks l).1.getLast? ∧
    ((coalesce_blocks l).2 = none ↔ l = []) := by
  rw [coalesce_blocks_eq]
  refine ⟨runsM_noAdjFree l, rfl, ?_⟩
  rw [List.getLast?_eq_none_iff]
  exact runsM_eq_nil_iff l

/-- C1 counterexample: `p = os_malloc(100); os_free(p)` ends the `os_free`
operation (a public operation, at rest) with two consecutive FREE registry
blocks: the freed 128-byte block and the FREE tail carved off by splitting.
The violation is not resolved before `os_free` returns. -/
theorem c1_counterexample :
    (os_free (os_malloc init 100).1 (os_malloc init 100).2).heap.map Block.status
      = [Status.free, Status.free] ∧
    ¬ noAdjFree (os_free (os_malloc init 100).1 (os_malloc init 100).2).heap := by
  constructor
  · decide
  · intro h
    have hs : (os_free (os_malloc init 100).1 (os_malloc init 100).2).heap.map Block.status
        = [Status.free, Status.free] := by decide
    unfold noAdjFree at h
    match hh : (os_free (os_malloc init 100).1 (os_malloc init 100).2).heap with
    | [] => rw [hh] at hs; simp at hs
    | [a] => rw [hh] at hs; simp at hs
    | a :: b :: t =>
      rw [hh] at hs h
      simp only [List.map_cons, List.cons.injEq] at hs
      rcases h with _ | ⟨hab, -⟩
      exact hab ⟨hs.1, hs.2.1⟩

/-- C2 counterexample: after `os_malloc(100)` (which preallocates and leaves a
FREE tail), `os_malloc(200000)` has aligned total size 200024 ≥ 128 KiB, yet
it is served from the contiguous heap by in-place expansion of the FREE tail
(payload pointer at heap offset 152), not by an anonymous mapping. -/
theorem c2_counterexample :
    (os_malloc (os_malloc init 100).1 200000).2 = some (Ptr.heap 152) ∧
    MMAP_THRESHOLD ≤ alignedSz 200000 := by decide

/-- C3 counterexample: `p = os_malloc(200000)` is a mapped block of total size
200024; `os_realloc(p, 300000)` moves it to a new mapped block of total size
300024 and copies `new_block->size - HDR = 300000` bytes from the old payload,
not `min(old, new) - HDR = 200000` bytes (an overread of the old mapping). -/
theorem c3_counterexample :
    (os_malloc init 200000).2 = some (Ptr.mapped 0) ∧
    ptrBlockSize (os_malloc init 200000).1 (Ptr.mapped 0) = 200024 ∧
    (os_realloc (os_malloc init 200000).1 (some (Ptr.mapped 0)) 300000).2
      = some (Ptr.mapped 1) ∧
    ptrBlockSize (os_realloc (os_malloc init 200000).1 (some (Ptr.mapped 0)) 300000).1
      (Ptr.mapped 1) = 300024 ∧
    (os_realloc (os_malloc init 200000).1 (some (Ptr.mapped 0)) 300000).1.copies
      = [300000] ∧
    min 200024 300024 - HDR = 200000 ∧ (300000 ≠ 200000) := by decide

/-- C6 counterexample: with requested size 0, `os_realloc` on a pointer whose
registry block is FREE does not leave the allocator untouched: it calls
`os_free`, which takes the non-ALLOC branch and issues
`munmap(block, block->size)` on registry memory (here the region at offset 0
of size 128).  The call does return null. -/
theorem c6_counterexample :
    ((lookupHeap (os_free (os_malloc init 100).1 (os_malloc init 100).2).heap 24).map
        (fun t => t.2.2.status) = some Status.free) ∧
    (os_realloc (os_free (os_malloc init 100).1 (os_malloc init 100).2)
        (some (Ptr.heap 24)) 0).2 = none ∧
    (os_free (os_malloc init 100).1 (os_malloc init 100).2).unmaps = [] ∧
    (os_realloc (os_free (os_malloc init 100).1 (os_malloc init 100).2)
        (some (Ptr.heap 24)) 0).1.unmaps = [UnmapCall.onHeap 0 128] := by decide

/-- C7 counterexample: `os_calloc(2^32, 2^32)` has both factors non-zero, and
the size_t product wraps to 0, so the call returns a non-null pointer to a
24-byte block with an empty payload; the first `2^32 * 2^32` bytes of the
returned payload are not all zero - the payload does not even contain them. -/
theorem c7_counterexample :
    (2 : Nat) ^ 32 ≠ 0 ∧
    (os_calloc init (2 ^ 32) (2 ^ 32)).2 = some (Ptr.heap 24) ∧
    payloadAt (os_calloc init (2 ^ 32) (2 ^ 32)).1 (Ptr.heap 24) = some [] ∧
    ¬ zerosUpTo [] (2 ^ 32 * 2 ^ 32) := by
  refine ⟨by decide, by decide, by decide, ?_⟩
  rintro ⟨hle, -⟩
  simp at hle

/-- C10: `os_calloc` multiplies count and element size in wrap-around size_t
arithmetic with no overflow guard.  For count `2^61 + 1` and element size 8
the mathematical product `2^64 + 8` exceeds the size_t range and wraps to 8:
the call proceeds (non-null result) and sizing, block selection and zeroing
all use the wrapped value 8 - the chosen registry block has total size
`24 + align(8) = 32` and exactly 8 zero bytes are written. -/
theorem c10_size_wraparound :
    2 ^ 64 < (2 ^ 61 + 1) * 8 ∧
    (8 * (2 ^ 61 + 1)) % W64 = 8 ∧
    (os_calloc init (2 ^ 61 + 1) 8).2 = some (Ptr.heap 24) ∧
    (os_calloc init (2 ^ 61 + 1) 8).1.heap.map Block.size = [32, 131040] ∧
    payloadAt (os_calloc init (2 ^ 61 + 1) 8).1 (Ptr.heap 24)
      = some (List.replicate 8 0) := by decide

/-! ## Best-fit search (C8) -/

/-- A candidate for a best-fit search of aligned size `S`. -/
def Cand (S : Nat) (c : Block) : Prop := c.status = .free ∧ S ≤ c.size

/-- Invariant carried by the `best_fit` accumulator over the scanned prefix. -/
def BfInv (S : Nat) (done : List Block) : Option (Nat × Block) → Prop
  | none => ∀ (j : Nat) (c : Block), done[j]? = some c → ¬ Cand S c
  | some (bi, bb) =>
    done[bi]? = some bb ∧ Cand S bb ∧
    (∀ (j : Nat) (c : Block), done[j]? = some c → Cand S c → bb.size ≤ c.size) ∧
    (∀ (j : Nat) (c : Block), done[j]? = some c → Cand S c → j < bi → bb.size < c.size)

theorem bestFitAux_spec (S : Nat) :
    ∀ (rest done : List Block) (best : Option (Nat × Block)),
    BfInv S done best →
    BfInv S (done ++ rest) (bestFitAux S rest done.length best) := by
  intro rest
  induction rest with
  | nil => intro done best h; simpa [bestFitAux] using h
  | cons b rest2 ih =>
    intro done best h
    have hstep : ∀ best2, BfInv S (done ++ [b]) best2 →
        BfInv S (done ++ b :: rest2) (bestFitAux S rest2 (done.length + 1) best2) := by
      intro best2 h2
      have h3 := ih (done ++ [b]) best2 h2
      rw [show (done ++ [b]).length = done.length + 1 by simp] at h3
      simpa using h3
    have hj_eq : (done ++ [b])[done.length]? = some b := by simp
    have hj_any : ∀ j (c : Block), (done ++ [b])[j]? = some c →
        (j < done.length ∧ done[j]? = some c) ∨ (j = done.length ∧ c = b) := by
      intro j c hjc
      rcases Nat.lt_trichotomy j done.length with hlt | heq | hgt
      · exact Or.inl ⟨hlt, by rw [← List.getElem?_append_left hlt]; exact hjc⟩
      · subst heq; rw [hj_eq] at hjc
        exact Or.inr ⟨rfl, by injection hjc with h4; exact h4.symm⟩
      · exfalso
        have h5 : (done ++ [b])[j]? = none := List.getElem?_eq_none (by simpa using hgt)
        rw [h5] at hjc; cases hjc
    by_cases hc : b.status = .free ∧ S ≤ b.size
    · match best, h with
      | none, h =>
        rw [show bestFitAux S (b :: rest2) done.length none
              = bestFitAux S rest2 (done.length + 1) (some (done.length, b)) by
            simp [bestFitAux, hc]]
        apply hstep
        refine ⟨hj_eq, hc, ?_, ?_⟩
        · intro j c hjc hcand
          rcases hj_any j c hjc with ⟨hlt, hdc⟩ | ⟨hje, hcb⟩
          · exact absurd hcand (h j c hdc)
          · rw [hcb]
        · intro j c hjc hcand hjlt
          rcases hj_any j c hjc with ⟨hlt, hdc⟩ | ⟨hje, hcb⟩
          · exact absurd hcand (h j c hdc)
          · omega
      | some (bi, bb), h =>
        obtain ⟨hbb, hcand_bb, hmin, hfirst⟩ := h
        have hbi_lt : bi < done.length := by
          by_contra hge
          have h6 : done[bi]? = none := List.getElem?_eq_none (by omega)
          rw [h6] at hbb; cases hbb
        by_cases hlt : b.size < bb.size
        · rw [show bestFitAux S (b :: rest2) done.length (some (bi, bb))
                = bestFitAux S rest2 (done.length + 1) (some (done.length, b)) by
              simp [bestFitAux, hc, hlt]]
          apply hstep
          refine ⟨hj_eq, hc, ?_, ?_⟩
          · intro j c hjc hcand
            rcases hj_any j c hjc with ⟨hjl, hdc⟩ | ⟨hje, hcb⟩
            · exact le_trans (le_of_lt hlt) (hmin j c hdc hcand)
            · rw [hcb]
          · intro j c hjc hcand hjlt2
            rcases hj_any j c hjc with ⟨hjl, hdc⟩ | ⟨hje, hcb⟩
            · exact lt_of_lt_of_le hlt (hmin j c hdc hcand)
            · omega
        · rw [show bestFitAux S (b :: rest2) done.length (some (bi, bb))
                = bestFitAux S rest2 (done.length + 1) (some (bi, bb)) by
              simp [bestFitAux, hc, hlt]]
          apply hstep
          refine ⟨by rw [List.getElem?_append_left hbi_lt]; exact hbb, hcand_bb, ?_, ?_⟩
          · intro j c hjc hcand
            rcases hj_any j c hjc with ⟨hjl, hdc⟩ | ⟨hje, hcb⟩
            · exact hmin j c hdc hcand
            · rw [hcb]; omega
          · intro j c hjc hcand hjlt2
            rcases hj_any j c hjc with ⟨hjl, hdc⟩ | ⟨hje, hcb⟩
            · exact hfirst j c hdc hcand hjlt2
            · omega
    · rw [show bestFitAux S (b :: rest2) done.length best
            = bestFitAux S rest2 (done.length + 1) best by
          simp [bestFitAux, hc]]
      apply hstep
      match best, h with
      | none, h =>
        show ∀ (j : Nat) (c : Block), (done ++ [b])[j]? = some c → ¬ Cand S c
        intro j c hjc
        rcases hj_any j c hjc with ⟨hjl, hdc⟩ | ⟨hje, hcb⟩
        · exact h j c hdc
        · rw [hcb]; exact hc
      | some (bi, bb), h =>
        obtain ⟨hbb, hcand_bb, hmin, hfirst⟩ := h
        have hbi_lt : bi < done.length := by
          by_contra hge
          have h6 : done[bi]? = none := List.getElem?_eq_none (by omega)
          rw [h6] at hbb; cases hbb
        refine ⟨by rw [List.getElem?_append_left hbi_lt]; exact hbb, hcand_bb, ?_, ?_⟩
        · intro j c hjc hcand
          rcases hj_any j c hjc with ⟨hjl, hdc⟩ | ⟨hje, hcb⟩
          · exact hmin j c hdc hcand
          · exact absurd (hcb ▸ hcand) hc
        · intro j c hjc hcand hjlt2
          rcases hj_any j c hjc with ⟨hjl, hdc⟩ | ⟨hje, hcb⟩
          · exact hfirst j c hdc hcand hjlt2
          · exact absurd (hcb ▸ hcand) hc

/-- Correctness of `find_best_fit` on a whole registry. -/
theorem find_best_fit_spec (l : List Block) (S : Nat) :
    BfInv S l (find_best_fit l S) := by
  have h := bestFitAux_spec S l [] none
    (by show ∀ (j : Nat) (c : Block), ([] : List Block)[j]? = some c → ¬ Cand S c
        intro j c hc; cases hc)
  simpa [find_best_fit] using h

/-- C8: `find_best_fit` returns a FREE block of size at least `S` and minimal
among all FREE blocks of size at least `S`; ties go to the block encountered
first; it returns null exactly when no FREE block of size at least `S`
exists. -/
theorem c8_best_fit (l : List Block) (S : Nat) :
    (∀ (i : Nat) (b : Block), find_best_fit l S = some (i, b) →
      l[i]? = some b ∧ b.status = .free ∧ S ≤ b.size ∧
      (∀ (j : Nat) (c : Block), l[j]? = some c → c.status = .free → S ≤ c.size →
        b.size ≤ c.size) ∧
      (∀ (j : Nat) (c : Block), l[j]? = some c → c.status = .free → S ≤ c.size →
        j < i → b.size < c.size)) ∧
    (find_best_fit l S = none ↔
      ∀ (j : Nat) (c : Block), l[j]? = some c → ¬(c.status = .free ∧ S ≤ c.size)) := by
  have h := find_best_fit_spec l S
  constructor
  · intro i b hib
    rw [hib] at h
    obtain ⟨h1, h2, h3, h4⟩ := h
    exact ⟨h1, h2.1, h2.2,
      fun j c hjc hf hs => h3 j c hjc ⟨hf, hs⟩,
      fun j c hjc hf hs hj => h4 j c hjc ⟨hf, hs⟩ hj⟩
  · constructor
    · intro hn
      rw [hn] at h
      exact h
    · intro hall
      match hfb : find_best_fit l S with
      | none => rfl
      | some (i, b) =>
        rw [hfb] at h
        exact absurd h.2.1 (hall i b h.1)

/-- Witness for C8 at a concrete registry: the search over
`[40 FREE, 32 ALLOC, 32 FREE, 32 FREE]` with `S = 30` returns index 2 (the
first minimal FREE fit), which is at most the size of the FREE block 0. -/
theorem c8_witness :
    find_best_fit
      [⟨40, .free, []⟩, ⟨32, .alloc, []⟩, ⟨32, .free, []⟩, ⟨32, .free, []⟩] 30
      = some (2, ⟨32, .free, []⟩) ∧ (32 : Nat) ≤ 40 := by
  constructor
  · decide
  · have h := (c8_best_fit
      [⟨40, .free, []⟩, ⟨32, .alloc, []⟩, ⟨32, .free, []⟩, ⟨32, .free, []⟩] 30).1
      2 ⟨32, .free, []⟩ (by decide)
    exact h.2.2.2.1 0 ⟨40, .free, []⟩ (by decide) (by decide) (by decide)

/-! ## Surgery lemmas: splitting and status changes keep the registry free of
adjacent FREE pairs -/

theorem getElem?_some_lt {l : List Block} {i : Nat} {b : Block} (h : l[i]? = some b) :
    i < l.length := by
  by_contra hge
  rw [List.getElem?_eq_none (by omega)] at h
  cases h

theorem eq_take_cons_drop {l : List Block} {i : Nat} {b : Block} (h : l[i]? = some b) :
    l = l.take i ++ b :: l.drop (i + 1) := by
  have hi : i < l.length := getElem?_some_lt h
  conv_lhs => rw [← List.take_append_drop i l]
  rw [List.drop_eq_getElem_cons hi]
  have hb : l[i] = b := by
    have h2 := List.getElem?_eq_getElem hi
    rw [h2] at h; injection h
  rw [hb]

theorem set_append_len (T L : List Block) (x y : Block) :
    (T ++ x :: L).set T.length y = T ++ y :: L := by
  rw [List.set_append_right _ _ (le_refl _)]
  simp

theorem set_append_idx (T L : List Block) (x y : Block) (i : Nat) (hi : T.length = i) :
    (T ++ x :: L).set i y = T ++ y :: L := by
  subst hi
  exact set_append_len T L x y

theorem getElem?_append_len (T L : List Block) (b : Block) :
    (T ++ b :: L)[T.length]? = some b := by
  rw [List.getElem?_append_right (le_refl _)]
  simp

theorem getElem?_append_idx (T L : List Block) (b : Block) (i : Nat) (hi : T.length = i) :
    (T ++ b :: L)[i]? = some b := by
  subst hi
  exact getElem?_append_len T L b

theorem noAdj_mid (T D : List Block) (b : Block) (h : noAdjFree (T ++ b :: D))
    (a : Block) (ha : ¬ a.status = .free) : noAdjFree (T ++ a :: D) := by
  unfold noAdjFree at *
  rw [List.chain'_append] at h ⊢
  obtain ⟨h1, h2, h3⟩ := h
  refine ⟨h1, ?_, ?_⟩
  · cases D with
    | nil => simp
    | cons d D2 =>
      rw [List.chain'_cons] at h2 ⊢
      exact ⟨fun hc => ha hc.1, h2.2⟩
  · intro x hx y hy
    simp at hy
    subst hy
    exact fun hc => ha hc.2

theorem noAdj_mid_two (T D : List Block) (b : Block) (h : noAdjFree (T ++ b :: D))
    (hb : b.status = .free) (a t : Block) (ha : ¬ a.status = .free) :
    noAdjFree (T ++ a :: t :: D) := by
  unfold noAdjFree at *
  rw [List.chain'_append] at h ⊢
  obtain ⟨h1, h2, h3⟩ := h
  refine ⟨h1, ?_, ?_⟩
  · rw [List.chain'_cons]
    refine ⟨fun hc => ha hc.1, ?_⟩
    cases D with
    | nil => simp
    | cons d D2 =>
      rw [List.chain'_cons] at h2 ⊢
      exact ⟨fun hc => h2.1 ⟨hb, hc.2⟩, h2.2⟩
  · intro x hx y hy
    simp at hy
    subst hy
    exact fun hc => ha hc.2

theorem noAdj_append_one (T : List Block) (h : noAdjFree T) (a : Block)
    (ha : ¬ a.status = .free) : noAdjFree (T ++ [a]) := by
  unfold noAdjFree at *
  rw [List.chain'_append]
  refine ⟨h, by simp, ?_⟩
  intro x hx y hy
  simp at hy
  subst hy
  exact fun hc => ha hc.2

/-- The best-fit placement surgery (split when roomy, then mark the chosen
block) preserves adjacent-FREE freedom, whatever the marking function does to
the data, as long as it sets status ALLOC. -/
theorem noAdj_place (h1 : List Block) (i : Nat) (b : Block) (a : Nat) (f : Block → Block)
    (hf : ∀ b', (f b').status = .alloc)
    (hib : h1[i]? = some b) (hb : b.status = .free) (hch : noAdjFree h1)
    (h2 out : List Block)
    (hh2 : h2 = if add64 a SPLIT_PAD ≤ b.size then replaceAt h1 i (split_block b a) else h1)
    (hout : out = match h2[i]? with | some b' => h2.set i (f b') | none => h2) :
    noAdjFree out := by
  have hi : i < h1.length := getElem?_some_lt hib
  have hT : (h1.take i).length = i := by rw [List.length_take]; omega
  have hdec : h1 = h1.take i ++ b :: h1.drop (i + 1) := eq_take_cons_drop hib
  have hnotfree : ∀ b', ¬ (f b').status = .free := by
    intro b' hc
    rw [hf b'] at hc
    cases hc
  by_cases hsp : add64 a SPLIT_PAD ≤ b.size
  · rw [if_pos hsp] at hh2
    have h2eq : h2 = h1.take i ++ (⟨a, b.status, b.data.take (a - HDR)⟩ : Block)
        :: (⟨sub64 b.size a, .free, b.data.drop a⟩ : Block) :: h1.drop (i + 1) := by
      rw [hh2]
      simp [replaceAt, split_block]
    have hidx : h2[i]? = some (⟨a, b.status, b.data.take (a - HDR)⟩ : Block) := by
      rw [h2eq]
      exact getElem?_append_idx _ _ _ i hT
    rw [hidx] at hout
    simp only at hout
    rw [h2eq, set_append_idx _ _ _ _ i hT] at hout
    rw [hout]
    exact noAdj_mid_two (h1.take i) (h1.drop (i + 1)) b (hdec ▸ hch) hb _ _ (hnotfree _)
  · rw [if_neg hsp] at hh2
    rw [hh2] at hout
    rw [hib] at hout
    simp only at hout
    rw [hdec, set_append_idx _ _ _ _ i hT] at hout
    rw [hout]
    exact noAdj_mid (h1.take i) (h1.drop (i + 1)) b (hdec ▸ hch) _ (hnotfree _)

/-- The tail-expansion surgery (grow the FREE tail in place, split when roomy,
then mark) preserves adjacent-FREE freedom. -/
theorem noAdj_place_last (h1 : List Block) (last lb : Block) (a : Nat) (f : Block → Block)
    (hf : ∀ b', (f b').status = .alloc)
    (hl : h1.getLast? = some last) (hfree : last.status = .free) (hch : noAdjFree h1)
    (h2 h3 out : List Block)
    (hh2 : h2 = h1.set (h1.length - 1) lb)
    (hh3 : h3 = if add64 a SPLIT_PAD ≤ lb.size then
                  replaceAt h2 (h1.length - 1) (split_block lb a) else h2)
    (hout : out = match h3[h1.length - 1]? with
                  | some b' => h3.set (h1.length - 1) (f b')
                  | none => h3) :
    noAdjFree out := by
  have hne : h1 ≠ [] := by
    intro hnil
    rw [hnil] at hl
    cases hl
  have hdec : h1.dropLast ++ [last] = h1 := by
    cases h1 with
    | nil => exact absurd rfl hne
    | cons x xs =>
      have hne2 : (x :: xs) ≠ [] := by simp
      rw [List.getLast?_eq_getLast _ hne2] at hl
      injection hl with h4
      rw [← h4]
      exact List.dropLast_append_getLast hne2
  have hT : h1.dropLast.length = h1.length - 1 := by
    rw [List.length_dropLast]
  have hnotfree : ∀ b', ¬ (f b').status = .free := by
    intro b' hc
    rw [hf b'] at hc
    cases hc
  have hch2 : noAdjFree (h1.dropLast ++ last :: []) := by rw [hdec]; exact hch
  have hh2e : h2 = h1.dropLast ++ lb :: [] := by
    rw [hh2]
    calc h1.set (h1.length - 1) lb
        = (h1.dropLast ++ last :: []).set (h1.length - 1) lb := by rw [hdec]
      _ = h1.dropLast ++ lb :: [] := set_append_idx _ _ _ _ _ hT
  by_cases hsp : add64 a SPLIT_PAD ≤ lb.size
  · rw [if_pos hsp] at hh3
    have h3eq : h3 = h1.dropLast ++ (⟨a, lb.status, lb.data.take (a - HDR)⟩ : Block)
        :: (⟨sub64 lb.size a, .free, lb.data.drop a⟩ : Block) :: [] := by
      rw [hh3, hh2e]
      show (h1.dropLast ++ lb :: []).take (h1.length - 1) ++ split_block lb a
          ++ (h1.dropLast ++ lb :: []).drop (h1.length - 1 + 1) = _
      rw [show h1.length - 1 = h1.dropLast.length from hT.symm, List.take_left]
      rw [show h1.dropLast.length + 1 = h1.dropLast.length + 1 from rfl, List.drop_append]
      simp [split_block]
    have hidx : h3[h1.length - 1]? = some (⟨a, lb.status, lb.data.take (a - HDR)⟩ : Block) := by
      rw [h3eq]
      exact getElem?_append_idx _ _ _ _ hT
    rw [hidx] at hout
    simp only at hout
    rw [h3eq, set_append_idx _ _ _ _ _ hT] at hout
    rw [hout]
    exact noAdj_mid_two h1.dropLast [] last hch2 hfree _ _ (hnotfree _)
  · rw [if_neg hsp] at hh3
    rw [hh2e] at hh3
    subst hh3
    have hidx : (h1.dropLast ++ lb :: [])[h1.length - 1]? = some lb := by
      exact getElem?_append_idx _ _ _ _ hT
    rw [hidx] at hout
    simp only at hout
    rw [set_append_idx _ _ _ _ _ hT] at hout
    rw [hout]
    exact noAdj_mid h1.dropLast [] last hch2 _ (hnotfree _)

/-! ## The allocation entry points restore adjacent-FREE freedom (C1) -/

theorem bf_some_facts {l : List Block} {S i : Nat} {b : Block}
    (heq : find_best_fit l S = some (i, b)) :
    l[i]? = some b ∧ b.status = .free ∧ S ≤ b.size := by
  have h := find_best_fit_spec l S
  rw [heq] at h
  exact ⟨h.1, h.2.1.1, h.2.1.2⟩

theorem bf_none_facts {l : List Block} {S : Nat}
    (heq : find_best_fit l S = none) :
    ∀ (j : Nat) (c : Block), l[j]? = some c → ¬ (c.status = .free ∧ S ≤ c.size) := by
  have h := find_best_fit_spec l S
  rw [heq] at h
  exact h

/-- After `os_malloc` with a non-zero request, the registry has no two
adjacent FREE blocks. -/
theorem malloc_heap_noAdj (s : AllocState) (n : Nat) (hn : ¬ n = 0) :
    noAdjFree ((os_malloc s n).1).heap := by
  unfold os_malloc
  rw [if_neg hn]
  simp only [coalesce_blocks_eq]
  generalize hH : runsM (if s.heap = [] ∧ alignedInt n < 131072 then
    ({ s with heap := [preallocBlock] } : AllocState) else s).heap = H
  have hch : noAdjFree H := hH ▸ runsM_noAdjFree _
  split
  · rename_i i b heq
    obtain ⟨hib, hb, -⟩ := bf_some_facts heq
    exact noAdj_place H i b (alignedSz n) (fun b' => ⟨b'.size, .alloc, b'.data⟩)
      (fun b' => rfl) hib hb hch _ _ rfl rfl
  · rename_i heq
    split
    · rename_i last hlast
      split
      · rename_i hfree
        exact noAdj_place_last H last
          ⟨add64 last.size (sub64 (alignedSz n) last.size), last.status,
            last.data ++ List.replicate (sub64 (alignedSz n) last.size) 0⟩
          (alignedSz n) (fun b' => ⟨b'.size, .alloc, b'.data⟩) (fun b' => rfl)
          hlast hfree hch _ _ _ rfl rfl rfl
      · split
        · exact noAdj_append_one H hch _ (by simp)
        · exact hch
    · rename_i hnone
      split
      · exact noAdj_append_one H hch _ (by simp)
      · exact hch

/-- After `os_calloc` with non-zero arguments, the registry has no two
adjacent FREE blocks. -/
theorem calloc_heap_noAdj (s : AllocState) (k m : Nat) (hk : ¬ (k = 0 ∨ m = 0)) :
    noAdjFree ((os_calloc s k m).1).heap := by
  unfold os_calloc
  rw [if_neg hk]
  simp only [coalesce_blocks_eq]
  generalize hH : runsM (if s.heap = [] ∧ alignedInt ((m * k) % W64) < (PAGE_SIZE : Int) then
    ({ s with heap := [preallocBlock] } : AllocState) else s).heap = H
  have hch : noAdjFree H := hH ▸ runsM_noAdjFree _
  split
  · rename_i i b heq
    obtain ⟨hib, hb, -⟩ := bf_some_facts heq
    exact noAdj_place H i b (alignedSz ((m * k) % W64))
      (fun b' => ⟨b'.size, .alloc, zeroWrite b'.data ((m * k) % W64)⟩) (fun b' => rfl)
      hib hb hch _ _ rfl rfl
  · rename_i heq
    split
    · rename_i last hlast
      split
      · rename_i hfree
        exact noAdj_place_last H last
          ⟨add64 last.size (sub64 (alignedSz ((m * k) % W64)) last.size), last.status,
            last.data ++ List.replicate (sub64 (alignedSz ((m * k) % W64)) last.size) 0⟩
          (alignedSz ((m * k) % W64))
          (fun b' => ⟨b'.size, .alloc, zeroWrite b'.data ((m * k) % W64)⟩) (fun b' => rfl)
          hlast hfree hch _ _ _ rfl rfl rfl
      · split
        · exact noAdj_append_one H hch _ (by simp)
        · exact hch
    · rename_i hnone
      split
      · exact noAdj_append_one H hch _ (by simp)
      · exact hch

/-- C1 (amended): the no-two-adjacent-FREE invariant is restored by the
allocation entry points, which run the coalescing pass before searching: after
any `os_malloc` with non-zero size and any `os_calloc` with non-zero factors,
the registry has no two consecutive FREE blocks - whatever state the
operation started from.  (It does not hold after `os_free`, which defers
coalescing: see the counterexample.) -/
theorem c1_theorem (s t : AllocState) (n k m : Nat) (hn : n ≠ 0) (hk : k ≠ 0) (hm : m ≠ 0) :
    noAdjFree ((os_malloc s n).1).heap ∧ noAdjFree ((os_calloc t k m).1).heap :=
  ⟨malloc_heap_noAdj s n hn,
   calloc_heap_noAdj t k m (by rintro (h | h); exact hk h; exact hm h)⟩

/-- Witness for C1 at concrete inputs. -/
theorem c1_witness :
    noAdjFree ((os_malloc init 100).1).heap ∧ noAdjFree ((os_calloc init 3 5).1).heap :=
  c1_theorem init init 100 3 5 (by decide) (by decide) (by decide)

/-- C6 (amended): for NON-ZERO requested size, `os_realloc` on a pointer whose
registry block is FREE returns null and leaves the allocator state (registry,
headers, payloads, mapped list, and all ghost fields) exactly unchanged.
(For zero size the call instead behaves as free, which munmaps registry
memory: see the counterexample.) -/
theorem c6_theorem (s : AllocState) (addr size i o : Nat) (b : Block)
    (hsz : size ≠ 0) (hl : lookupHeap s.heap addr = some (i, o, b))
    (hf : b.status = .free) :
    os_realloc s (some (Ptr.heap addr)) size = (s, none) := by
  simp [os_realloc, hsz, hl, hf]

/-- Witness for C6 at a concrete state. -/
theorem c6_witness :
    os_realloc (⟨[⟨32, .free, List.replicate 8 0⟩], [], 0, [], [], false⟩ : AllocState)
      (some (Ptr.heap 24)) 8
    = ((⟨[⟨32, .free, List.replicate 8 0⟩], [], 0, [], [], false⟩ : AllocState), none) :=
  c6_theorem _ 24 8 0 0 ⟨32, .free, List.replicate 8 0⟩ (by decide) (by decide) rfl

/-- C9: `os_free` distinguishes only `STATUS_ALLOC` from everything else, so
on a pointer naming a registry block whose status is already FREE it takes
the mapped-block branch and attempts `munmap(block, block->size)` on the
block's region (start offset and size recorded in the unmap ghost log; the C
code aborts the process if that munmap is refused). -/
theorem c9_theorem (s : AllocState) (addr i o : Nat) (b : Block)
    (hl : lookupHeap s.heap addr = some (i, o, b)) (hf : b.status = .free) :
    os_free s (some (Ptr.heap addr))
      = { s with unmaps := s.unmaps ++ [UnmapCall.onHeap o b.size] } := by
  simp [os_free, hl, hf]

/-- Witness for C9 at a concrete state. -/
theorem c9_witness :
    os_free (⟨[⟨32, .free, List.replicate 8 0⟩], [], 0, [], [], false⟩ : AllocState)
      (some (Ptr.heap 24))
    = (⟨[⟨32, .free, List.replicate 8 0⟩], [], 0, [UnmapCall.onHeap 0 32], [], false⟩
        : AllocState) :=
  c9_theorem _ 24 0 0 ⟨32, .free, List.replicate 8 0⟩ rfl rfl

/-! ## The backing-store decision (C2) -/

/-- C2 (amended, the direction that holds): a MAPPED return from `os_malloc`
implies the aligned total size is at least `MMAP_THRESHOLD`.  The converse
fails: best-fit reuse and in-place tail expansion serve requests of any size
from the registry (see the counterexample). -/
theorem c2_theorem (s : AllocState) (n : Nat) (id : Nat)
    (h : (os_malloc s n).2 = some (Ptr.mapped id)) :
    MMAP_THRESHOLD ≤ alignedSz n := by
  by_cases hn : n = 0
  · rw [hn] at h
    simp [os_malloc] at h
  · unfold os_malloc at h
    rw [if_neg hn] at h
    simp only [coalesce_blocks_eq] at h
    split at h
    · simp at h
    · split at h
      · split at h
        · simp at h
        · split at h
          · simp at h
          · rename_i hge
            omega
      · split at h
        · simp at h
        · rename_i hge
          omega

/-- Witness for C2's theorem: a 200000-byte request from the empty state is
mapped, and its aligned size is indeed at least the threshold. -/
theorem c2_witness : MMAP_THRESHOLD ≤ alignedSz 200000 :=
  c2_theorem init 200000 0 (by decide)

/-! ## Alignment arithmetic (C4) -/

theorem sizeTOfInt_toInt32 (X : Nat) :
    sizeTOfInt (toInt32 X) =
      if X % 2 ^ 32 < 2 ^ 31 then X % 2 ^ 32 else X % 2 ^ 32 + (2 ^ 64 - 2 ^ 32) := by
  unfold toInt32 sizeTOfInt
  by_cases h : X % 2 ^ 32 < 2 ^ 31
  · simp only [h, if_true]
    omega
  · simp only [h, if_false]
    omega

theorem dvd8_W64 : (8 : Nat) ∣ W64 := ⟨2 ^ 61, by norm_num [W64]⟩

theorem align8_mod8 (n : Nat) : align8 n % 8 = 0 := Nat.mul_mod_left _ 8

theorem add64_mod8 {a b : Nat} (ha : a % 8 = 0) (hb : b % 8 = 0) :
    add64 a b % 8 = 0 := by
  unfold add64
  rw [Nat.mod_mod_of_dvd _ dvd8_W64]
  omega

theorem sub64_mod8 {a b : Nat} (ha : a % 8 = 0) (hb : b % 8 = 0) :
    sub64 a b % 8 = 0 := by
  unfold sub64
  rw [Nat.mod_mod_of_dvd _ dvd8_W64]
  have h1 : a % W64 % 8 = a % 8 := Nat.mod_mod_of_dvd _ dvd8_W64
  have h2 : b % W64 % 8 = b % 8 := Nat.mod_mod_of_dvd _ dvd8_W64
  have h3 : b % W64 ≤ W64 := le_of_lt (Nat.mod_lt _ (by norm_num [W64]))
  have h4 : W64 % 8 = 0 := by norm_num [W64]
  omega

theorem alignedSz_mod8 (n : Nat) : alignedSz n % 8 = 0 := by
  unfold alignedSz alignedInt
  rw [sizeTOfInt_toInt32]
  have hX : add64 (align8 szMeta) (align8 n) % 8 = 0 :=
    add64_mod8 (align8_mod8 _) (align8_mod8 _)
  have h32 : add64 (align8 szMeta) (align8 n) % 2 ^ 32 % 8
      = add64 (align8 szMeta) (align8 n) % 8 :=
    Nat.mod_mod_of_dvd _ ⟨2 ^ 29, by norm_num⟩
  split
  · omega
  · omega

theorem alignedR_mod8 (n : Nat) : alignedR n % 8 = 0 :=
  add64_mod8 (align8_mod8 _) (align8_mod8 _)

/-- Every registry block size is a multiple of 8. -/
def Sizes8 (l : List Block) : Prop := ∀ b ∈ l, b.size % 8 = 0

theorem sizes8_mergeB {p c : Block} (hp : p.size % 8 = 0) (hc : c.size % 8 = 0) :
    (mergeB p c).size % 8 = 0 := add64_mod8 hp hc

theorem sizes8_runs {p : Block} {l : List Block} (hp : p.size % 8 = 0) (hl : Sizes8 l) :
    Sizes8 (runs p l) := by
  induction l generalizing p with
  | nil =>
    intro b hb
    simp [runs] at hb
    rw [hb]; exact hp
  | cons c rest ih =>
    have hc : c.size % 8 = 0 := hl c (by simp)
    have hrest : Sizes8 rest := fun b hb => hl b (by simp [hb])
    by_cases h : p.status = .free ∧ c.status = .free
    · rw [show runs p (c :: rest) = runs (mergeB p c) rest by simp [runs, h]]
      exact ih (sizes8_mergeB hp hc) hrest
    · rw [show runs p (c :: rest) = p :: runs c rest by simp [runs, h]]
      intro b hb
      rcases List.mem_cons.mp hb with hb | hb
      · rw [hb]; exact hp
      · exact ih hc hrest b hb

theorem sizes8_runsM {l : List Block} (hl : Sizes8 l) : Sizes8 (runsM l) := by
  cases l with
  | nil => intro b hb; cases hb
  | cons c rest =>
    exact sizes8_runs (hl c (by simp)) (fun b hb => hl b (by simp [hb]))

theorem sizes8_sum {l : List Block} (hl : Sizes8 l) : (l.map Block.size).sum % 8 = 0 := by
  induction l with
  | nil => simp
  | cons b rest ih =>
    have hb : b.size % 8 = 0 := hl b (by simp)
    have := ih (fun c hc => hl c (by simp [hc]))
    simp only [List.map_cons, List.sum_cons]
    omega

theorem sizes8_take {l : List Block} (hl : Sizes8 l) (i : Nat) : Sizes8 (l.take i) :=
  fun b hb => hl b (List.take_subset i l hb)

theorem sizes8_drop {l : List Block} (hl : Sizes8 l) (i : Nat) : Sizes8 (l.drop i) :=
  fun b hb => hl b (List.drop_subset i l hb)

theorem startOf_mod8 {l : List Block} (hl : Sizes8 l) (i : Nat) : startOf l i % 8 = 0 :=
  sizes8_sum (sizes8_take hl i)

theorem heapEnd_mod8 {l : List Block} (hl : Sizes8 l) : heapEnd l % 8 = 0 :=
  sizes8_sum hl

theorem sizes8_set {l : List Block} (hl : Sizes8 l) {b : Block} (hb : b.size % 8 = 0)
    (i : Nat) : Sizes8 (l.set i b) := by
  intro c hc
  rcases List.mem_or_eq_of_mem_set hc with hc | hc
  · exact hl c hc
  · rw [hc]; exact hb

theorem sizes8_append {l1 l2 : List Block} (h1 : Sizes8 l1) (h2 : Sizes8 l2) :
    Sizes8 (l1 ++ l2) := by
  intro c hc
  rcases List.mem_append.mp hc with hc | hc
  · exact h1 c hc
  · exact h2 c hc

theorem sizes8_replaceAt {l : List Block} (hl : Sizes8 l) {bs : List Block}
    (hbs : Sizes8 bs) (i : Nat) : Sizes8 (replaceAt l i bs) :=
  sizes8_append (sizes8_append (sizes8_take hl i) hbs) (sizes8_drop hl (i + 1))

theorem sizes8_split {b : Block} (hb : b.size % 8 = 0) {a : Nat} (ha : a % 8 = 0) :
    Sizes8 (split_block b a) := by
  intro c hc
  simp [split_block] at hc
  rcases hc with hc | hc
  · rw [hc]; exact ha
  · rw [hc]; exact sub64_mod8 hb ha

/-- A successful payload lookup at a multiple-of-8 scan origin lands on an
8-aligned payload address. -/
theorem lookupGo_mod8 {l : List Block} (hl : Sizes8 l) :
    ∀ {i o addr j st : Nat} {b : Block}, o % 8 = 0 →
    lookupGo addr i o l = some (j, st, b) → addr % 8 = 0 := by
  induction l with
  | nil => intro i o addr j st b ho h; cases h
  | cons c rest ih =>
    intro i o addr j st b ho h
    rw [lookupGo] at h
    split at h
    · rename_i heq
      have : HDR % 8 = 0 := by decide
      omega
    · have hc : c.size % 8 = 0 := hl c (by simp)
      exact ih (fun x hx => hl x (by simp [hx])) (by omega) h

theorem lookupGo_mem {l : List Block} :
    ∀ {i o addr j st : Nat} {b : Block},
    lookupGo addr i o l = some (j, st, b) → b ∈ l := by
  induction l with
  | nil => intro i o addr j st b h; cases h
  | cons c rest ih =>
    intro i o addr j st b h
    rw [lookupGo] at h
    split at h
    · injection h with h2
      injection h2 with h3 h4
      injection h4 with h5 h6
      simp [← h6]
    · exact List.mem_cons_of_mem c (ih h)

theorem absorbFree_sizes8 {b : Block} {l : List Block} (hb : b.size % 8 = 0)
    (hl : Sizes8 l) :
    (absorbFree b l).1.size % 8 = 0 ∧ Sizes8 (absorbFree b l).2 := by
  induction l generalizing b with
  | nil => exact ⟨hb, fun c hc => by cases hc⟩
  | cons n rest ih =>
    have hn : n.size % 8 = 0 := hl n (by simp)
    have hrest : Sizes8 rest := fun c hc => hl c (by simp [hc])
    by_cases h : n.status = .free
    · rw [show absorbFree b (n :: rest) = absorbFree (mergeB b n) rest by
        simp [absorbFree, h]]
      exact ih (sizes8_mergeB hb hn) hrest
    · rw [show absorbFree b (n :: rest) = (b, n :: rest) by simp [absorbFree, h]]
      exact ⟨hb, hl⟩

/-- The match-and-mark step used by the allocation paths keeps all sizes
multiples of 8 when the marking function does. -/
theorem sizes8_mark (l : List Block) (hl : Sizes8 l) (i : Nat) (f : Block → Block)
    (hf : ∀ b', b' ∈ l → (f b').size % 8 = 0) :
    Sizes8 (match l[i]? with | some b' => l.set i (f b') | none => l) := by
  cases hli : l[i]? with
  | some b' => exact sizes8_set hl (hf b' (List.getElem?_mem hli)) i
  | none => exact hl

theorem sizes8_preallocIf (s : AllocState) (hs : Sizes8 s.heap) (c : Prop) [Decidable c] :
    Sizes8 ((if c then ({ s with heap := [preallocBlock] } : AllocState) else s).heap) := by
  split
  · intro b hb
    simp [preallocBlock] at hb
    rw [hb]
    decide
  · exact hs

/-- `os_malloc` keeps registry block sizes multiples of 8 and returns 8-aligned
heap payload addresses. -/
theorem malloc_s8_aligned (s : AllocState) (n : Nat) (hs : Sizes8 s.heap) :
    Sizes8 ((os_malloc s n).1).heap ∧
    (∀ addr, (os_malloc s n).2 = some (Ptr.heap addr) → addr % 8 = 0) := by
  by_cases hn : n = 0
  · rw [hn]
    simp only [os_malloc, if_pos rfl]
    exact ⟨hs, by intro addr h; cases h⟩
  · unfold os_malloc
    rw [if_neg hn]
    simp only [coalesce_blocks_eq]
    have hs0 := sizes8_preallocIf s hs (s.heap = [] ∧ alignedInt n < 131072)
    generalize hH : runsM (if s.heap = [] ∧ alignedInt n < 131072 then
      ({ s with heap := [preallocBlock] } : AllocState) else s).heap = H
    have hs8 : Sizes8 H := hH ▸ sizes8_runsM hs0
    have hHDR : HDR % 8 = 0 := by decide
    split
    · rename_i i b heq
      obtain ⟨hib, -, -⟩ := bf_some_facts heq
      have hbm : b.size % 8 = 0 := hs8 b (List.getElem?_mem hib)
      constructor
      · apply sizes8_mark
        · split
          · exact sizes8_replaceAt hs8 (sizes8_split hbm (alignedSz_mod8 n)) i
          · exact hs8
        · intro b' hb'
          show b'.size % 8 = 0
          split at hb'
          · exact sizes8_replaceAt hs8 (sizes8_split hbm (alignedSz_mod8 n)) i b' hb'
          · exact hs8 b' hb'
      · intro addr h
        simp only [Option.some.injEq, Ptr.heap.injEq] at h
        have := startOf_mod8 hs8 i
        omega
    · rename_i heq
      split
      · rename_i last hlast
        have hlm : last.size % 8 = 0 := hs8 last (List.mem_of_mem_getLast? hlast)
        split
        · rename_i hfree
          have hlb : (add64 last.size (sub64 (alignedSz n) last.size)) % 8 = 0 :=
            add64_mod8 hlm (sub64_mod8 (alignedSz_mod8 n) hlm)
          have hs2 : Sizes8 (H.set (H.length - 1)
              (⟨add64 last.size (sub64 (alignedSz n) last.size), last.status,
                last.data ++ List.replicate (sub64 (alignedSz n) last.size) 0⟩ : Block)) :=
            sizes8_set hs8 hlb _
          constructor
          · apply sizes8_mark
            · split
              · exact sizes8_replaceAt hs2 (sizes8_split hlb (alignedSz_mod8 n)) _
              · exact hs2
            · intro b' hb'
              show b'.size % 8 = 0
              split at hb'
              · exact sizes8_replaceAt hs2 (sizes8_split hlb (alignedSz_mod8 n)) _ b' hb'
              · exact hs2 b' hb'
          · intro addr h
            simp only [Option.some.injEq, Ptr.heap.injEq] at h
            have := startOf_mod8 hs8 (H.length - 1)
            omega
        · split
          · constructor
            · exact sizes8_append hs8
                (by intro b hb; simp at hb; rw [hb]; exact alignedSz_mod8 n)
            · intro addr h
              simp only [Option.some.injEq, Ptr.heap.injEq] at h
              have := heapEnd_mod8 hs8
              omega
          · exact ⟨hs8, by intro addr h; simp at h⟩
      · split
        · constructor
          · exact sizes8_append hs8
              (by intro b hb; simp at hb; rw [hb]; exact alignedSz_mod8 n)
          · intro addr h
            simp only [Option.some.injEq, Ptr.heap.injEq] at h
            have := heapEnd_mod8 hs8
            omega
        · exact ⟨hs8, by intro addr h; simp at h⟩

/-- `os_calloc` keeps registry block sizes multiples of 8 and returns 8-aligned
heap payload addresses. -/
theorem calloc_s8_aligned (s : AllocState) (k m : Nat) (hs : Sizes8 s.heap) :
    Sizes8 ((os_calloc s k m).1).heap ∧
    (∀ addr, (os_calloc s k m).2 = some (Ptr.heap addr) → addr % 8 = 0) := by
  by_cases hk : k = 0 ∨ m = 0
  · rw [show os_calloc s k m = (s, none) by simp [os_calloc, hk]]
    exact ⟨hs, by intro addr h; cases h⟩
  · unfold os_calloc
    rw [if_neg hk]
    simp only [coalesce_blocks_eq]
    have hs0 := sizes8_preallocIf s hs
      (s.heap = [] ∧ alignedInt ((m * k) % W64) < (PAGE_SIZE : Int))
    generalize hH : runsM (if s.heap = [] ∧ alignedInt ((m * k) % W64) < (PAGE_SIZE : Int) then
      ({ s with heap := [preallocBlock] } : AllocState) else s).heap = H
    have hs8 : Sizes8 H := hH ▸ sizes8_runsM hs0
    have hHDR : HDR % 8 = 0 := by decide
    split
    · rename_i i b heq
      obtain ⟨hib, -, -⟩ := bf_some_facts heq
      have hbm : b.size % 8 = 0 := hs8 b (List.getElem?_mem hib)
      constructor
      · apply sizes8_mark
        · split
          · exact sizes8_replaceAt hs8 (sizes8_split hbm (alignedSz_mod8 _)) i
          · exact hs8
        · intro b' hb'
          show b'.size % 8 = 0
          split at hb'
          · exact sizes8_replaceAt hs8 (sizes8_split hbm (alignedSz_mod8 _)) i b' hb'
          · exact hs8 b' hb'
      · intro addr h
        simp only [Option.some.injEq, Ptr.heap.injEq] at h
        have := startOf_mod8 hs8 i
        omega
    · rename_i heq
      split
      · rename_i last hlast
        have hlm : last.size % 8 = 0 := hs8 last (List.mem_of_mem_getLast? hlast)
        split
        · rename_i hfree
          have hlb : (add64 last.size (sub64 (alignedSz ((m * k) % W64)) last.size)) % 8 = 0 :=
            add64_mod8 hlm (sub64_mod8 (alignedSz_mod8 _) hlm)
          have hs2 : Sizes8 (H.set (H.length - 1)
              (⟨add64 last.size (sub64 (alignedSz ((m * k) % W64)) last.size), last.status,
                last.data ++ List.replicate (sub64 (alignedSz ((m * k) % W64)) last.size) 0⟩
                : Block)) :=
            sizes8_set hs8 hlb _
          constructor
          · apply sizes8_mark
            · split
              · exact sizes8_replaceAt hs2 (sizes8_split hlb (alignedSz_mod8 _)) _
              · exact hs2
            · intro b' hb'
              show b'.size % 8 = 0
              split at hb'
              · exact sizes8_replaceAt hs2 (sizes8_split hlb (alignedSz_mod8 _)) _ b' hb'
              · exact hs2 b' hb'
          · intro addr h
            simp only [Option.some.injEq, Ptr.heap.injEq] at h
            have := startOf_mod8 hs8 (H.length - 1)
            omega
        · split
          · constructor
            · exact sizes8_append hs8
                (by intro b hb; simp at hb; rw [hb]; exact alignedSz_mod8 _)
            · intro addr h
              simp only [Option.some.injEq, Ptr.heap.injEq] at h
              have := heapEnd_mod8 hs8
              omega
          · exact ⟨hs8, by intro addr h; simp at h⟩
      · split
        · constructor
          · exact sizes8_append hs8
              (by intro b hb; simp at hb; rw [hb]; exact alignedSz_mod8 _)
          · intro addr h
            simp only [Option.some.injEq, Ptr.heap.injEq] at h
            have := heapEnd_mod8 hs8
            omega
        · exact ⟨hs8, by intro addr h; simp at h⟩

/-- `os_free` keeps registry block sizes multiples of 8. -/
theorem free_sizes8 (s : AllocState) (p : Option Ptr) (hs : Sizes8 s.heap) :
    Sizes8 ((os_free s p).heap) := by
  unfold os_free
  match p with
  | none => exact hs
  | some (.heap addr) =>
    cases hl : lookupHeap s.heap addr with
    | none => simp only [hl]; exact hs
    | some t =>
      obtain ⟨i, o, b⟩ := t
      have hbm : b.size % 8 = 0 := hs b (lookupGo_mem hl)
      simp only [hl]
      by_cases hst : b.status = .alloc
      · rw [if_pos hst]
        exact sizes8_set hs
          (show (⟨b.size, Status.free, b.data⟩ : Block).size % 8 = 0 from hbm) i
      · rw [if_neg hst]
        exact hs
  | some (.mapped id) =>
    cases hl : lookupMapped s.mapped id with
    | none => simp only [hl]; exact hs
    | some mb => simp only [hl]; exact hs

/-- `writePayload` keeps registry block sizes multiples of 8. -/
theorem writePayload_sizes8 (s : AllocState) (q : Ptr) (bytes : List Nat)
    (hs : Sizes8 s.heap) : Sizes8 ((writePayload s q bytes).heap) := by
  unfold writePayload
  match q with
  | .heap addr =>
    cases hl : lookupHeap s.heap addr with
    | none => simp only [hl]; exact hs
    | some t =>
      obtain ⟨i, o, b⟩ := t
      have hbm : b.size % 8 = 0 := hs b (lookupGo_mem hl)
      simp only [hl]
      exact sizes8_set hs
        (show (⟨b.size, b.status, bytes ++ b.data.drop bytes.length⟩ : Block).size % 8 = 0
          from hbm) i
  | .mapped id => exact hs

/-- `os_realloc` keeps registry block sizes multiples of 8 and returns
8-aligned heap payload addresses. -/
theorem realloc_s8_aligned (s : AllocState) (p : Option Ptr) (sz : Nat)
    (hs : Sizes8 s.heap) :
    Sizes8 ((os_realloc s p sz).1).heap ∧
    (∀ addr, (os_realloc s p sz).2 = some (Ptr.heap addr) → addr % 8 = 0) := by
  match p with
  | none =>
    rw [show os_realloc s none sz = os_malloc s sz by simp [os_realloc]]
    exact malloc_s8_aligned s sz hs
  | some ptr =>
    by_cases hsz : sz = 0
    · rw [show os_realloc s (some ptr) sz = (os_free s (some ptr), none) by
        simp [os_realloc, hsz]]
      exact ⟨free_sizes8 s _ hs, by intro addr h; cases h⟩
    · match ptr with
      | .mapped id =>
        cases hl : lookupMapped s.mapped id with
        | none =>
          simp only [os_realloc, hsz, if_false, hl]
          exact ⟨hs, by intro addr h; cases h⟩
        | some m =>
          by_cases heqsz : m.size = alignedR sz
          · simp only [os_realloc, hsz, if_false, hl, heqsz, if_pos rfl]
            exact ⟨hs, by intro addr h; simp at h⟩
          · obtain ⟨hm1, hm2⟩ := malloc_s8_aligned s sz hs
            cases hq : (os_malloc s sz).2 with
            | none =>
              simp only [os_realloc, hsz, if_false, hl, heqsz, if_false, hq]
              exact ⟨hm1, by intro addr h; cases h⟩
            | some q =>
              simp only [os_realloc, hsz, if_false, hl, heqsz, if_false, hq]
              refine ⟨free_sizes8 _ _ (writePayload_sizes8 _ _ _ hm1), ?_⟩
              intro addr h
              simp only [Option.some.injEq] at h
              exact hm2 addr (by rw [hq, h])
      | .heap haddr =>
        cases hl : lookupHeap s.heap haddr with
        | none =>
          simp only [os_realloc, hsz, if_false, hl]
          exact ⟨hs, by intro addr h; cases h⟩
        | some t =>
          obtain ⟨i, o, b⟩ := t
          have hbm : b.size % 8 = 0 := hs b (lookupGo_mem hl)
          have haddr8 : haddr % 8 = 0 := lookupGo_mod8 hs (by omega) hl
          by_cases hfree : b.status = .free
          · simp only [os_realloc, hsz, if_false, hl, hfree, if_pos rfl]
            exact ⟨hs, by intro addr h; cases h⟩
          · by_cases heqsz : b.size = alignedR sz
            · simp only [os_realloc, hsz, if_false, hl, hfree, if_false, heqsz, if_pos rfl]
              refine ⟨hs, ?_⟩
              intro addr h
              have h2 : haddr = addr := by simpa using h
              omega
            · by_cases hshr : alignedR sz ≤ b.size ∧ add64 (alignedR sz) SPLIT_PAD ≤ b.size
              · simp only [os_realloc, hsz, if_false, hl, hfree, heqsz, if_false, hshr,
                  if_true]
                refine ⟨sizes8_replaceAt hs (sizes8_split hbm (alignedR_mod8 _)) i, ?_⟩
                intro addr h
                have h2 : haddr = addr := by simpa using h
                omega
              · have hH : Sizes8 (runsM s.heap) := sizes8_runsM hs
                cases hl2 : lookupHeap (runsM s.heap) haddr with
                | none =>
                  simp only [os_realloc, hsz, if_false, hl, hfree, heqsz, hshr, if_false,
                    coalesce_blocks_eq, hl2]
                  exact ⟨hH, by intro addr h; cases h⟩
                | some t2 =>
                  obtain ⟨i2, o2, b1⟩ := t2
                  have hb1 : b1.size % 8 = 0 := hH b1 (lookupGo_mem hl2)
                  obtain ⟨hex1, hex2⟩ := absorbFree_sizes8 hb1 (sizes8_drop hH (i2 + 1))
                  have hs2 : Sizes8 ((runsM s.heap).take i2
                      ++ (absorbFree b1 ((runsM s.heap).drop (i2 + 1))).1
                      :: (absorbFree b1 ((runsM s.heap).drop (i2 + 1))).2) := by
                    apply sizes8_append (sizes8_take hH i2)
                    intro c hc
                    rcases List.mem_cons.mp hc with hc | hc
                    · rw [hc]; exact hex1
                    · exact hex2 c hc
                  by_cases hfit :
                      alignedR sz ≤ (absorbFree b1 ((runsM s.heap).drop (i2 + 1))).1.size
                  · simp only [os_realloc, hsz, if_false, hl, hfree, heqsz, hshr, if_false,
                      coalesce_blocks_eq, hl2, hfit, if_true]
                    constructor
                    · split
                      · exact sizes8_append (sizes8_append (sizes8_take hH i2)
                          (sizes8_split hex1 (alignedR_mod8 _))) hex2
                      · exact hs2
                    · intro addr h
                      have h2 : haddr = addr := by simpa using h
                      omega
                  · obtain ⟨hm1, hm2⟩ := malloc_s8_aligned
                      { s with heap := (runsM s.heap).take i2
                          ++ (absorbFree b1 ((runsM s.heap).drop (i2 + 1))).1
                          :: (absorbFree b1 ((runsM s.heap).drop (i2 + 1))).2 } sz hs2
                    cases hq : (os_malloc { s with heap := (runsM s.heap).take i2
                        ++ (absorbFree b1 ((runsM s.heap).drop (i2 + 1))).1
                        :: (absorbFree b1 ((runsM s.heap).drop (i2 + 1))).2 } sz).2 with
                    | none =>
                      simp only [os_realloc, hsz, if_false, hl, hfree, heqsz, hshr,
                        if_false, coalesce_blocks_eq, hl2, hfit, hq]
                      exact ⟨hm1, by intro addr h; cases h⟩
                    | some q =>
                      simp only [os_realloc, hsz, if_false, hl, hfree, heqsz, hshr,
                        if_false, coalesce_blocks_eq, hl2, hfit, hq]
                      refine ⟨free_sizes8 _ _ (writePayload_sizes8 _ _ _ hm1), ?_⟩
                      intro addr h
                      simp only [Option.some.injEq] at h
                      exact hm2 addr (by rw [hq, h])

/-- C4: given that every registry block size is a multiple of 8 (which every
operation preserves, as also proved here), every payload pointer any of the
three allocation entry points returns is 8-byte aligned: a heap payload
address is the block's start offset (a sum of multiple-of-8 block sizes from
the 8-aligned initial break) plus the aligned header size `HDR`, which is the
natural header size rounded up to 8 and itself a multiple of 8.  A mapped
payload sits at offset `HDR` inside its own page-aligned region. -/
theorem c4_theorem (s1 s2 s3 : AllocState) (n k m sz : Nat) (p : Option Ptr)
    (h1 : Sizes8 s1.heap) (h2 : Sizes8 s2.heap) (h3 : Sizes8 s3.heap) :
    HDR = align8 szMeta ∧ HDR % 8 = 0 ∧
    (∀ addr, (os_malloc s1 n).2 = some (Ptr.heap addr) → addr % 8 = 0) ∧
    (∀ addr, (os_calloc s2 k m).2 = some (Ptr.heap addr) → addr % 8 = 0) ∧
    (∀ addr, (os_realloc s3 p sz).2 = some (Ptr.heap addr) → addr % 8 = 0) ∧
    Sizes8 ((os_malloc s1 n).1).heap ∧
    Sizes8 ((os_calloc s2 k m).1).heap ∧
    Sizes8 ((os_realloc s3 p sz).1).heap :=
  ⟨rfl, by decide,
   (malloc_s8_aligned s1 n h1).2, (calloc_s8_aligned s2 k m h2).2,
   (realloc_s8_aligned s3 p sz h3).2,
   (malloc_s8_aligned s1 n h1).1, (calloc_s8_aligned s2 k m h2).1,
   (realloc_s8_aligned s3 p sz h3).1⟩

/-- Witness for C4 at concrete inputs from the empty state. -/
theorem c4_witness :
    HDR = align8 szMeta ∧ HDR % 8 = 0 ∧
    (∀ addr, (os_malloc init 100).2 = some (Ptr.heap addr) → addr % 8 = 0) ∧
    (∀ addr, (os_calloc init 3 5).2 = some (Ptr.heap addr) → addr % 8 = 0) ∧
    (∀ addr, (os_realloc init none 50).2 = some (Ptr.heap addr) → addr % 8 = 0) ∧
    Sizes8 ((os_malloc init 100).1).heap ∧
    Sizes8 ((os_calloc init 3 5).1).heap ∧
    Sizes8 ((os_realloc init none 50).1).heap :=
  c4_theorem init init init 100 3 5 50 none
    (by intro b hb; cases hb) (by intro b hb; cases hb) (by intro b hb; cases hb)

/-! ## Heap well-formedness and payload lookups (infrastructure for C7, C3) -/

/-- Registry well-formedness: every block's payload is exactly its size minus
the header, and the total registry size fits in `size_t` (so merges do not
wrap). -/
def HeapWF (l : List Block) : Prop :=
  (∀ b ∈ l, b.data.length + HDR = b.size) ∧ (l.map Block.size).sum < W64

/-- All mapped ids are below the id counter. -/
def MappedWF (s : AllocState) : Prop := ∀ mb ∈ s.mapped, mb.id < s.nextId

theorem heapWF_pos {l : List Block} (h : HeapWF l) : ∀ b ∈ l, 0 < b.size := by
  intro b hb
  have := h.1 b hb
  have : HDR = 24 := by decide
  omega

theorem align8_exact {n : Nat} (h : n + 7 < W64) :
    align8 n = (n + 7) / 8 * 8 := by
  unfold align8 add64
  rw [Nat.mod_eq_of_lt h]

theorem align8_ge {n : Nat} (h : n + 7 < W64) : n ≤ align8 n := by
  rw [align8_exact h]
  omega

theorem align8_le {n : Nat} (h : n + 7 < W64) : align8 n ≤ n + 7 := by
  rw [align8_exact h]
  omega

theorem alignedSz_exact {n : Nat} (h : szMeta + align8 n < 2 ^ 31) :
    alignedSz n = szMeta + align8 n := by
  have h24 : align8 szMeta = szMeta := by decide
  have hW : szMeta + align8 n < W64 := lt_trans h (by norm_num [W64])
  unfold alignedSz alignedInt
  rw [h24]
  rw [show add64 szMeta (align8 n) = szMeta + align8 n from Nat.mod_eq_of_lt hW]
  rw [sizeTOfInt_toInt32]
  have h32 : (szMeta + align8 n) % 2 ^ 32 = szMeta + align8 n :=
    Nat.mod_eq_of_lt (lt_trans h (by norm_num))
  rw [h32, if_pos (lt_of_le_of_lt (le_refl _) h)]

theorem runs_wf (p : Block) (l : List Block)
    (hsum : p.size + (l.map Block.size).sum < W64)
    (hp : p.data.length + HDR = p.size)
    (hl : ∀ b ∈ l, b.data.length + HDR = b.size) :
    ((runs p l).map Block.size).sum = p.size + (l.map Block.size).sum ∧
    (∀ b ∈ runs p l, b.data.length + HDR = b.size) := by
  induction l generalizing p with
  | nil => exact ⟨by simp [runs], by intro b hb; simp [runs] at hb; rw [hb]; exact hp⟩
  | cons c rest ih =>
    have hc : c.data.length + HDR = c.size := hl c (by simp)
    have hrest : ∀ b ∈ rest, b.data.length + HDR = b.size := fun b hb => hl b (by simp [hb])
    have hmsz : (mergeB p c).size = p.size + c.size := by
      show add64 p.size c.size = p.size + c.size
      unfold add64
      apply Nat.mod_eq_of_lt
      simp at hsum
      omega
    by_cases h : p.status = .free ∧ c.status = .free
    · rw [show runs p (c :: rest) = runs (mergeB p c) rest by simp [runs, h]]
      have hmd : (mergeB p c).data.length + HDR = (mergeB p c).size := by
        show (p.data ++ List.replicate HDR 0 ++ c.data).length + HDR = _
        rw [hmsz]
        simp only [List.length_append, List.length_replicate]
        omega
      have hsum2 : (mergeB p c).size + (rest.map Block.size).sum < W64 := by
        rw [hmsz]
        simp at hsum
        omega
      obtain ⟨h1, h2⟩ := ih (mergeB p c) hsum2 hmd hrest
      refine ⟨?_, h2⟩
      rw [h1, hmsz]
      simp only [List.map_cons, List.sum_cons]
      omega
    · rw [show runs p (c :: rest) = p :: runs c rest by simp [runs, h]]
      have hsum2 : c.size + (rest.map Block.size).sum < W64 := by
        simp at hsum
        omega
      obtain ⟨h1, h2⟩ := ih c hsum2 hc hrest
      constructor
      · simp only [List.map_cons, List.sum_cons, h1]
      · intro b hb
        rcases List.mem_cons.mp hb with hb | hb
        · rw [hb]; exact hp
        · exact h2 b hb

theorem runsM_wf {l : List Block} (h : HeapWF l) : HeapWF (runsM l) := by
  cases l with
  | nil => exact ⟨(by intro b hb; cases hb), (by simpa [runsM] using h.2)⟩
  | cons c rest =>
    have hc : c.data.length + HDR = c.size := h.1 c (by simp)
    have hrest : ∀ b ∈ rest, b.data.length + HDR = b.size := fun b hb => h.1 b (by simp [hb])
    have hsum : c.size + ((rest.map Block.size).sum) < W64 := by
      have := h.2
      simp at this
      omega
    obtain ⟨h1, h2⟩ := runs_wf c rest hsum hc hrest
    refine ⟨h2, ?_⟩
    show ((runs c rest).map Block.size).sum < W64
    rw [h1]
    have := h.2
    simp at this
    omega

/-- Block lookup skips a physically contiguous prefix of positive-size
blocks. -/
theorem lookupGo_skip (T R : List Block) (hpos : ∀ b ∈ T, 0 < b.size) :
    ∀ (i o addr : Nat), addr = o + ((T.map Block.size).sum) + HDR →
    lookupGo addr i o (T ++ R)
      = lookupGo addr (i + T.length) (o + ((T.map Block.size).sum)) R := by
  induction T with
  | nil => intro i o addr h; simp
  | cons t T2 ih =>
    intro i o addr h
    have htp : 0 < t.size := hpos t (by simp)
    rw [List.cons_append, lookupGo]
    rw [if_neg (by simp at h; omega)]
    rw [ih (fun b hb => hpos b (by simp [hb])) (i + 1) (o + t.size) addr
      (by simp at h ⊢; omega)]
    have e1 : i + 1 + T2.length = i + (t :: T2).length := by simp; omega
    have e2 : o + t.size + ((T2.map Block.size).sum)
        = o + (((t :: T2).map Block.size).sum) := by simp; omega
    rw [e1, e2]

/-- Characterization of a successful lookup. -/
theorem lookupGo_char {l : List Block} :
    ∀ {i o addr j st : Nat} {b : Block}, lookupGo addr i o l = some (j, st, b) →
    i ≤ j ∧ j - i < l.length ∧ l[j - i]? = some b ∧
    st = o + (((l.take (j - i)).map Block.size).sum) ∧ addr = st + HDR := by
  induction l with
  | nil => intro i o addr j st b h; cases h
  | cons c rest ih =>
    intro i o addr j st b h
    rw [lookupGo] at h
    split at h
    · rename_i heq
      injection h with h2
      injection h2 with h3 h4
      injection h4 with h5 h6
      subst h3
      subst h5
      subst h6
      refine ⟨le_refl _, by simp, by simp, by simp, heq.symm⟩
    · rename_i hne
      obtain ⟨h1, h2, h3, h4, h5⟩ := ih h
      have hij : i < j := by omega
      refine ⟨by omega, by simp; omega, ?_, ?_, h5⟩
      · rw [show j - i = (j - (i + 1)) + 1 by omega]
        simpa using h3
      · rw [show j - i = (j - (i + 1)) + 1 by omega]
        simp only [List.take_succ_cons, List.map_cons, List.sum_cons]
        omega

/-- Rewriting the block found by a lookup. -/
theorem lookupGo_set {l : List Block} :
    ∀ {i o addr j st : Nat} {b : Block} (b' : Block),
    lookupGo addr i o l = some (j, st, b) →
    lookupGo addr i o (l.set (j - i) b') = some (j, st, b') := by
  induction l with
  | nil => intro i o addr j st b b' h; cases h
  | cons c rest ih =>
    intro i o addr j st b b' h
    rw [lookupGo] at h
    split at h
    · rename_i heq
      injection h with h2
      injection h2 with h3 h4
      injection h4 with h5 h6
      rw [show j - i = 0 by omega]
      show lookupGo addr i o (b' :: rest) = _
      rw [lookupGo, if_pos heq, h3, h5]
    · rename_i hne
      have hij : i + 1 ≤ j := (lookupGo_char h).1
      rw [show j - i = (j - (i + 1)) + 1 by omega]
      show lookupGo addr i o (c :: rest.set (j - (i + 1)) b') = _
      rw [lookupGo, if_neg hne]
      exact ih b' h

/-- A lookup hit does not depend on the running index (only the returned
index shifts). -/
theorem lookupGo_shift {l : List Block} :
    ∀ {i o addr j st : Nat} {b : Block} (i2 : Nat),
    lookupGo addr i o l = some (j, st, b) →
    lookupGo addr i2 o l = some (i2 + (j - i), st, b) := by
  induction l with
  | nil => intro i o addr j st b i2 h; cases h
  | cons c rest ih =>
    intro i o addr j st b i2 h
    rw [lookupGo] at h
    split at h
    · rename_i heq
      injection h with h2
      injection h2 with h3 h4
      injection h4 with h5 h6
      rw [lookupGo, if_pos heq]
      rw [show i2 + (j - i) = i2 by omega, ← h5, ← h6]
    · rename_i hne
      have hij : i + 1 ≤ j := (lookupGo_char h).1
      rw [lookupGo, if_neg hne]
      rw [ih (i2 + 1) h]
      rw [show i2 + 1 + (j - (i + 1)) = i2 + (j - i) by omega]

/-- Where the best-fit placement surgery leaves the chosen block: the lookup
at the returned payload address finds it, marked, at the same start. -/
theorem place_found (H : List Block) (i : Nat) (b : Block) (a : Nat) (f : Block → Block)
    (hib : H[i]? = some b) (hpos : ∀ c ∈ H, 0 < c.size)
    (h2 out : List Block)
    (hh2 : h2 = if add64 a SPLIT_PAD ≤ b.size then replaceAt H i (split_block b a) else H)
    (hout : out = match h2[i]? with | some b' => h2.set i (f b') | none => h2) :
    lookupHeap out (startOf H i + HDR)
      = some (i, startOf H i,
          f (if add64 a SPLIT_PAD ≤ b.size then
              (⟨a, b.status, b.data.take (a - HDR)⟩ : Block) else b)) := by
  have hi : i < H.length := getElem?_some_lt hib
  have hT : (H.take i).length = i := by rw [List.length_take]; omega
  have hdec : H = H.take i ++ b :: H.drop (i + 1) := eq_take_cons_drop hib
  have hposT : ∀ c ∈ H.take i, 0 < c.size := fun c hc => hpos c (List.take_subset _ _ hc)
  have hstart : startOf H i = 0 + ((H.take i).map Block.size).sum + 0 := by
    simp [startOf]
  by_cases hsp : add64 a SPLIT_PAD ≤ b.size
  · rw [if_pos hsp] at hh2
    have h2eq : h2 = H.take i ++ (⟨a, b.status, b.data.take (a - HDR)⟩ : Block)
        :: (⟨sub64 b.size a, .free, b.data.drop a⟩ : Block) :: H.drop (i + 1) := by
      rw [hh2]; simp [replaceAt, split_block]
    have hidx : h2[i]? = some (⟨a, b.status, b.data.take (a - HDR)⟩ : Block) := by
      rw [h2eq]; exact getElem?_append_idx _ _ _ i hT
    rw [hidx] at hout
    simp only at hout
    rw [h2eq, set_append_idx _ _ _ _ i hT] at hout
    rw [hout, if_pos hsp]
    unfold lookupHeap
    rw [lookupGo_skip (H.take i) _ hposT 0 0 _ (by simp [startOf])]
    rw [lookupGo, if_pos (by simp [startOf])]
    simp [startOf, hT]
  · rw [if_neg hsp] at hh2
    rw [hh2] at hout
    rw [hib] at hout
    simp only at hout
    rw [hdec, set_append_idx _ _ _ _ i hT] at hout
    rw [hout, if_neg hsp]
    unfold lookupHeap
    rw [lookupGo_skip (H.take i) _ hposT 0 0 _ (by simp [startOf])]
    rw [lookupGo, if_pos (by simp [startOf])]
    simp [startOf, hT]

/-- Where the tail-expansion surgery leaves the grown block. -/
theorem place_found_last (H : List Block) (last lb : Block) (a : Nat) (f : Block → Block)
    (hl : H.getLast? = some last) (hpos : ∀ c ∈ H, 0 < c.size)
    (h2 h3 out : List Block)
    (hh2 : h2 = H.set (H.length - 1) lb)
    (hh3 : h3 = if add64 a SPLIT_PAD ≤ lb.size then
                  replaceAt h2 (H.length - 1) (split_block lb a) else h2)
    (hout : out = match h3[H.length - 1]? with
                  | some b' => h3.set (H.length - 1) (f b')
                  | none => h3) :
    lookupHeap out (startOf H (H.length - 1) + HDR)
      = some (H.length - 1, startOf H (H.length - 1),
          f (if add64 a SPLIT_PAD ≤ lb.size then
              (⟨a, lb.status, lb.data.take (a - HDR)⟩ : Block) else lb)) := by
  have hne : H ≠ [] := by intro hnil; rw [hnil] at hl; cases hl
  have hdec : H.dropLast ++ [last] = H := by
    cases H with
    | nil => exact absurd rfl hne
    | cons x xs =>
      have hne2 : (x :: xs) ≠ [] := by simp
      rw [List.getLast?_eq_getLast _ hne2] at hl
      injection hl with h4
      rw [← h4]
      exact List.dropLast_append_getLast hne2
  have hT : H.dropLast.length = H.length - 1 := by rw [List.length_dropLast]
  have hposT : ∀ c ∈ H.dropLast, 0 < c.size := fun c hc => hpos c (List.dropLast_subset _ hc)
  have hstart : startOf H (H.length - 1) = ((H.dropLast.map Block.size).sum) := by
    rw [startOf, ← List.dropLast_eq_take]
  have hh2e : h2 = H.dropLast ++ lb :: [] := by
    rw [hh2]
    calc H.set (H.length - 1) lb
        = (H.dropLast ++ last :: []).set (H.length - 1) lb := by rw [hdec]
      _ = H.dropLast ++ lb :: [] := set_append_idx _ _ _ _ _ hT
  by_cases hsp : add64 a SPLIT_PAD ≤ lb.size
  · rw [if_pos hsp] at hh3
    have h3eq : h3 = H.dropLast ++ (⟨a, lb.status, lb.data.take (a - HDR)⟩ : Block)
        :: (⟨sub64 lb.size a, .free, lb.data.drop a⟩ : Block) :: [] := by
      rw [hh3, hh2e]
      show (H.dropLast ++ lb :: []).take (H.length - 1) ++ split_block lb a
          ++ (H.dropLast ++ lb :: []).drop (H.length - 1 + 1) = _
      rw [show H.length - 1 = H.dropLast.length from hT.symm, List.take_left]
      rw [List.drop_append]
      simp [split_block]
    have hidx : h3[H.length - 1]? = some (⟨a, lb.status, lb.data.take (a - HDR)⟩ : Block) := by
      rw [h3eq]; exact getElem?_append_idx _ _ _ _ hT
    rw [hidx] at hout
    simp only at hout
    rw [h3eq, set_append_idx _ _ _ _ _ hT] at hout
    rw [hout, if_pos hsp]
    unfold lookupHeap
    rw [lookupGo_skip H.dropLast _ hposT 0 0 _ (by rw [hstart]; omega)]
    rw [lookupGo, if_pos (by rw [hstart]; omega)]
    rw [hstart]
    simp [hT]
  · rw [if_neg hsp] at hh3
    rw [hh2e] at hh3
    rw [hh3] at hout
    have hidx : (H.dropLast ++ lb :: [])[H.length - 1]? = some lb :=
      getElem?_append_idx _ _ _ _ hT
    rw [hidx] at hout
    simp only at hout
    rw [set_append_idx _ _ _ _ _ hT] at hout
    rw [hout, if_neg hsp]
    unfold lookupHeap
    rw [lookupGo_skip H.dropLast _ hposT 0 0 _ (by rw [hstart]; omega)]
    rw [lookupGo, if_pos (by rw [hstart]; omega)]
    rw [hstart]
    simp [hT]

/-- Where a freshly appended break block lands. -/
theorem append_found (H : List Block) (nb : Block) (hpos : ∀ c ∈ H, 0 < c.size) :
    lookupHeap (H ++ [nb]) (heapEnd H + HDR) = some (H.length, heapEnd H, nb) := by
  unfold lookupHeap
  rw [lookupGo_skip H [nb] hpos 0 0 _ (by simp [heapEnd])]
  rw [lookupGo, if_pos (by simp [heapEnd])]
  simp [heapEnd]

/-- A freshly mapped block with an unused id is found by its id. -/
theorem lookupMapped_append (ms : List MBlock) (m : MBlock) (idv : Nat)
    (hid : m.id = idv) (hfresh : ∀ x ∈ ms, x.id ≠ idv) :
    lookupMapped (ms ++ [m]) idv = some m := by
  unfold lookupMapped
  rw [List.find?_append]
  rw [List.find?_eq_none.mpr (by intro x hx; simpa using hfresh x hx)]
  simp [List.find?, hid]

theorem add64_eq {a b : Nat} (h : a + b < W64) : add64 a b = a + b := Nat.mod_eq_of_lt h

theorem sub64_eq {a b : Nat} (hb : b ≤ a) (ha : a < W64) : sub64 a b = a - b := by
  have hW : W64 = 18446744073709551616 := by norm_num [W64]
  unfold sub64
  rw [hW] at ha ⊢
  omega

theorem alignedInt_exact {n : Nat} (h : szMeta + align8 n < 2 ^ 31) :
    alignedInt n = ((szMeta + align8 n : Nat) : Int) := by
  have h24 : align8 szMeta = szMeta := by decide
  have hW : szMeta + align8 n < W64 := lt_trans h (by norm_num [W64])
  unfold alignedInt
  rw [h24, show add64 szMeta (align8 n) = szMeta + align8 n from Nat.mod_eq_of_lt hW]
  unfold toInt32
  have h32 : (szMeta + align8 n) % 2 ^ 32 = szMeta + align8 n :=
    Nat.mod_eq_of_lt (lt_trans h (by norm_num))
  simp only [h32]
  rw [if_pos (by omega : szMeta + align8 n < 2 ^ 31)]

theorem zerosUpTo_zeroWrite (d : List Nat) (ws : Nat) (h : ws ≤ d.length) :
    zerosUpTo (zeroWrite d ws) ws := by
  unfold zerosUpTo zeroWrite
  rw [min_eq_left h]
  refine ⟨by simp, ?_⟩
  rw [List.take_append_of_le_length (by simp)]
  simp

theorem preallocBlock_data :
    preallocBlock.data = List.replicate (MMAP_THRESHOLD - HDR) 0 := rfl

theorem preallocBlock_size : preallocBlock.size = MMAP_THRESHOLD := rfl

/-- The WF facts for the state after the optional preallocation. -/
theorem heapWF_preallocIf (s : AllocState) (hs : HeapWF s.heap) (c : Prop) [Decidable c] :
    HeapWF ((if c then ({ s with heap := [preallocBlock] } : AllocState) else s).heap) := by
  have hMT : MMAP_THRESHOLD = 131072 := rfl
  have hHDR : HDR = 24 := by decide
  have hW64 : W64 = 18446744073709551616 := by norm_num [W64]
  split
  · constructor
    · intro b hb
      have hb2 : b = preallocBlock := by simpa using hb
      rw [hb2, preallocBlock_data, List.length_replicate, preallocBlock_size]
      omega
    · simp only [List.map_cons, List.map_nil, List.sum_cons, List.sum_nil,
        preallocBlock_size]
      omega
  · exact hs

/-- C7 (amended): for non-zero factors, `os_calloc` returns a non-null
payload whose first `(count * element_size) mod 2^64` bytes exist and are all
zero - the WRAPPED product, not the mathematical one - provided the wrapped
product is small enough that the `int` truncation of `aligned_size` is exact;
and it returns null whenever either factor is zero. -/
theorem c7_theorem (s : AllocState) (k m : Nat) (hk : k ≠ 0) (hm : m ≠ 0)
    (hwf : HeapWF s.heap) (hmwf : MappedWF s)
    (hws : (m * k) % W64 + szMeta + 7 < 2 ^ 31) :
    (∃ q d, (os_calloc s k m).2 = some q ∧
      payloadAt (os_calloc s k m).1 q = some d ∧
      zerosUpTo d ((m * k) % W64)) ∧
    (∀ k2 m2, k2 = 0 ∨ m2 = 0 → (os_calloc s k2 m2).2 = none) := by
  have hk2 : ¬ (k = 0 ∨ m = 0) := by rintro (h | h); exact hk h; exact hm h
  refine ⟨?_, by intro k2 m2 h; simp [os_calloc, h]⟩
  have hsz24 : szMeta = 24 := rfl
  have hHDR24 : HDR = 24 := by decide
  have hSP : SPLIT_PAD = 32 := by decide
  have hW64 : W64 = 18446744073709551616 := by norm_num [W64]
  have hws7 : (m * k) % W64 + 7 < W64 := by omega
  have haexp : szMeta + align8 ((m * k) % W64) < 2 ^ 31 := by
    have := align8_le hws7
    omega
  have ha_exact : alignedSz ((m * k) % W64) = szMeta + align8 ((m * k) % W64) :=
    alignedSz_exact haexp
  have hage : (m * k) % W64 ≤ align8 ((m * k) % W64) := align8_ge hws7
  have haW : alignedSz ((m * k) % W64) < W64 := by
    rw [ha_exact]
    exact lt_trans haexp (by norm_num [W64])
  unfold os_calloc
  rw [if_neg hk2]
  simp only [coalesce_blocks_eq]
  have hs0wf := heapWF_preallocIf s hwf
    (s.heap = [] ∧ alignedInt ((m * k) % W64) < (PAGE_SIZE : Int))
  have hmap_eq : (if s.heap = [] ∧ alignedInt ((m * k) % W64) < (PAGE_SIZE : Int) then
      ({ s with heap := [preallocBlock] } : AllocState) else s).mapped = s.mapped := by
    split <;> rfl
  have hnext_eq : (if s.heap = [] ∧ alignedInt ((m * k) % W64) < (PAGE_SIZE : Int) then
      ({ s with heap := [preallocBlock] } : AllocState) else s).nextId = s.nextId := by
    split <;> rfl
  generalize hH : runsM (if s.heap = [] ∧ alignedInt ((m * k) % W64) < (PAGE_SIZE : Int) then
    ({ s with heap := [preallocBlock] } : AllocState) else s).heap = H
  have hHwf : HeapWF H := hH ▸ runsM_wf hs0wf
  have hpos : ∀ c ∈ H, 0 < c.size := heapWF_pos hHwf
  split
  · rename_i i b heq
    obtain ⟨hib, hbf, hble⟩ := bf_some_facts heq
    have hbwf : b.data.length + HDR = b.size := hHwf.1 b (List.getElem?_mem hib)
    have hfound := place_found H i b (alignedSz ((m * k) % W64))
      (fun b' => ⟨b'.size, .alloc, zeroWrite b'.data ((m * k) % W64)⟩) hib hpos _ _ rfl rfl
    refine ⟨Ptr.heap (startOf H i + HDR),
      zeroWrite ((if add64 (alignedSz ((m * k) % W64)) SPLIT_PAD ≤ b.size then
        (⟨alignedSz ((m * k) % W64), b.status,
          b.data.take (alignedSz ((m * k) % W64) - HDR)⟩ : Block) else b)).data
        ((m * k) % W64), rfl, ?_, ?_⟩
    · show (lookupHeap _ _).map (fun t => t.2.2.data) = _
      rw [hfound]
      rfl
    · apply zerosUpTo_zeroWrite
      split
      · show (m * k) % W64 ≤ (b.data.take (alignedSz ((m * k) % W64) - HDR)).length
        rw [List.length_take]
        rw [ha_exact] at *
        omega
      · show (m * k) % W64 ≤ b.data.length
        rw [ha_exact] at *
        omega
  · rename_i heq
    split
    · rename_i last hlast
      split
      · rename_i hfree
        have hlm : last ∈ H := List.mem_of_mem_getLast? hlast
        have hlwf : last.data.length + HDR = last.size := hHwf.1 last hlm
        have hlidx : H[H.length - 1]? = some last := by
          rw [← List.getLast?_eq_getElem?]
          exact hlast
        have hlsm : last.size < alignedSz ((m * k) % W64) := by
          by_contra hge
          exact bf_none_facts heq (H.length - 1) last hlidx ⟨hfree, by omega⟩
        have hreq : sub64 (alignedSz ((m * k) % W64)) last.size
            = alignedSz ((m * k) % W64) - last.size := sub64_eq (by omega) haW
        have hlbsz : add64 last.size (sub64 (alignedSz ((m * k) % W64)) last.size)
            = alignedSz ((m * k) % W64) := by
          rw [hreq, add64_eq (by omega)]
          omega
        have hnosplit : ¬ add64 (alignedSz ((m * k) % W64)) SPLIT_PAD
            ≤ add64 last.size (sub64 (alignedSz ((m * k) % W64)) last.size) := by
          rw [hlbsz, hSP, add64_eq (by omega)]
          omega
        have hfound := place_found_last H last
          (⟨add64 last.size (sub64 (alignedSz ((m * k) % W64)) last.size), last.status,
            last.data ++ List.replicate (sub64 (alignedSz ((m * k) % W64)) last.size) 0⟩
            : Block)
          (alignedSz ((m * k) % W64))
          (fun b' => ⟨b'.size, .alloc, zeroWrite b'.data ((m * k) % W64)⟩)
          hlast hpos _ _ _ rfl rfl rfl
        refine ⟨Ptr.heap (startOf H (H.length - 1) + HDR),
          zeroWrite (last.data
            ++ List.replicate (sub64 (alignedSz ((m * k) % W64)) last.size) 0)
            ((m * k) % W64), rfl, ?_, ?_⟩
        · show (lookupHeap _ _).map (fun t => t.2.2.data) = _
          rw [hfound]
          rw [if_neg hnosplit]
          rfl
        · apply zerosUpTo_zeroWrite
          rw [List.length_append, List.length_replicate, hreq]
          rw [ha_exact] at *
          omega
      · split
        · rename_i hlt
          have hfound := append_found H
            (⟨alignedSz ((m * k) % W64), .alloc,
              zeroWrite (List.replicate (alignedSz ((m * k) % W64) - HDR) 0)
                ((m * k) % W64)⟩ : Block) hpos
          refine ⟨Ptr.heap (heapEnd H + HDR),
            zeroWrite (List.replicate (alignedSz ((m * k) % W64) - HDR) 0)
              ((m * k) % W64), rfl, ?_, ?_⟩
          · show (lookupHeap _ _).map (fun t => t.2.2.data) = _
            rw [hfound]
            rfl
          · apply zerosUpTo_zeroWrite
            rw [List.length_replicate]
            rw [ha_exact] at *
            omega
        · refine ⟨Ptr.mapped (if s.heap = [] ∧
              alignedInt ((m * k) % W64) < (PAGE_SIZE : Int) then
              ({ s with heap := [preallocBlock] } : AllocState) else s).nextId,
            zeroWrite (List.replicate (alignedSz ((m * k) % W64) - HDR) 0)
              ((m * k) % W64), rfl, ?_, ?_⟩
          · simp only [payloadAt]
            rw [hmap_eq, hnext_eq]
            rw [lookupMapped_append s.mapped _ s.nextId rfl
              (fun x hx => by have := hmwf x hx; omega)]
            rfl
          · apply zerosUpTo_zeroWrite
            rw [List.length_replicate]
            rw [ha_exact] at *
            omega
    · rename_i hnone
      split
      · rename_i hlt
        exfalso
        have hHnil : H = [] := List.getLast?_eq_none_iff.mp hnone
        have hs0nil : (if s.heap = [] ∧ alignedInt ((m * k) % W64) < (PAGE_SIZE : Int) then
            ({ s with heap := [preallocBlock] } : AllocState) else s).heap = [] := by
          apply (runsM_eq_nil_iff _).mp
          rw [hH, hHnil]
        by_cases hc : s.heap = [] ∧ alignedInt ((m * k) % W64) < (PAGE_SIZE : Int)
        · rw [if_pos hc] at hs0nil
          simp at hs0nil
        · rw [if_neg hc] at hs0nil
          have hai : ¬ alignedInt ((m * k) % W64) < (PAGE_SIZE : Int) :=
            fun h2 => hc ⟨hs0nil, h2⟩
          rw [alignedInt_exact haexp] at hai
          rw [ha_exact] at hlt
          exact hai (by exact_mod_cast hlt)
      · refine ⟨Ptr.mapped (if s.heap = [] ∧
            alignedInt ((m * k) % W64) < (PAGE_SIZE : Int) then
            ({ s with heap := [preallocBlock] } : AllocState) else s).nextId,
          zeroWrite (List.replicate (alignedSz ((m * k) % W64) - HDR) 0)
            ((m * k) % W64), rfl, ?_, ?_⟩
        · simp only [payloadAt]
          rw [hmap_eq, hnext_eq]
          rw [lookupMapped_append s.mapped _ s.nextId rfl
            (fun x hx => by have := hmwf x hx; omega)]
          rfl
        · apply zerosUpTo_zeroWrite
          rw [List.length_replicate]
          rw [ha_exact] at *
          omega

/-- Witness for C7: `os_calloc init 3 5` returns a pointer whose first
`15` payload bytes are zero, and a zero factor yields null. -/
theorem c7_witness :
    (∃ q d, (os_calloc init 3 5).2 = some q ∧
      payloadAt (os_calloc init 3 5).1 q = some d ∧
      zerosUpTo d ((5 * 3) % W64)) ∧
    (∀ k2 m2, k2 = 0 ∨ m2 = 0 → (os_calloc init k2 m2).2 = none) :=
  c7_theorem init 3 5 (by decide) (by decide)
    (⟨fun b hb => absurd hb (List.not_mem_nil b), by simp [init]; norm_num [W64]⟩)
    (fun mb hmb => absurd hmb (List.not_mem_nil mb))
    (by decide)

/-! ## Payload tracking (claim C3) -/

theorem alignedR_exact {n : Nat} (h : szMeta + align8 n < 2 ^ 31) :
    alignedR n = szMeta + align8 n := by
  have h24 : align8 szMeta = szMeta := by decide
  unfold alignedR
  rw [h24]
  show (align8 n + szMeta) % W64 = szMeta + align8 n
  rw [Nat.add_comm]
  exact Nat.mod_eq_of_lt (lt_trans h (by norm_num [W64]))

theorem sizeLe_sum (l : List Block) : ∀ b ∈ l, b.size ≤ (l.map Block.size).sum := by
  induction l with
  | nil => intro b hb; cases hb
  | cons c rest ih =>
    intro b hb
    rcases List.mem_cons.mp hb with hb | hb
    · subst hb
      simp only [List.map_cons, List.sum_cons]
      omega
    · have := ih b hb
      simp only [List.map_cons, List.sum_cons]
      omega

theorem found_at (T R : List Block) (x : Block) (hpos : ∀ c ∈ T, 0 < c.size)
    (addr : Nat) (haddr : addr = ((T.map Block.size).sum) + HDR) :
    lookupHeap (T ++ x :: R) addr = some (T.length, (T.map Block.size).sum, x) := by
  unfold lookupHeap
  rw [lookupGo_skip T (x :: R) hpos 0 0 addr (by omega)]
  rw [lookupGo, if_pos (by omega)]
  simp

theorem padTake_length (d : List Nat) (n : Nat) : (padTake d n).length = n := by
  unfold padTake
  simp only [List.length_append, List.length_take, List.length_replicate]
  omega

theorem padTake_getElem (d : List Nat) (n j : Nat) (h1 : j < d.length) (h2 : j < n) :
    (padTake d n)[j]? = d[j]? := by
  unfold padTake
  rw [List.getElem?_append_left (by simp only [List.length_take]; omega)]
  rw [List.getElem?_take, if_pos h2]

/-- A lookup survives overwriting another index with a block of the same
size. -/
theorem lookupGo_set_other {l : List Block} :
    ∀ {i o addr j st : Nat} {b : Block} (k : Nat) (b' : Block),
    lookupGo addr i o l = some (j, st, b) → k ≠ j - i →
    (∀ c, l[k]? = some c → c.size = b'.size) →
    lookupGo addr i o (l.set k b') = some (j, st, b) := by
  induction l with
  | nil => intro i o addr j st b k b' h _ _; cases h
  | cons c rest ih =>
    intro i o addr j st b k b' h hk hsz
    rw [lookupGo] at h
    split at h
    · rename_i heq
      injection h with h2
      injection h2 with h3 h4
      injection h4 with h5 h6
      cases k with
      | zero => exact absurd (by omega) hk
      | succ k2 =>
        show lookupGo addr i o (c :: rest.set k2 b') = _
        rw [lookupGo, if_pos heq, h3, h5, h6]
    · rename_i hne
      have hij : i + 1 ≤ j := (lookupGo_char h).1
      cases k with
      | zero =>
        have hcs : c.size = b'.size := hsz c (by simp)
        show lookupGo addr i o (b' :: rest) = _
        rw [lookupGo, if_neg hne, ← hcs]
        exact h
      | succ k2 =>
        show lookupGo addr i o (c :: rest.set k2 b') = _
        rw [lookupGo, if_neg hne]
        exact ih k2 b' h (by omega) (fun c2 hc2 => hsz c2 (by simpa using hc2))

/-- The coalescing merge preserves every ALLOC block: it is found at the same
offset with the same content (only its index may shift). -/
theorem runs_lookup (l : List Block) :
    ∀ (cur : Block) (i i2 o addr j st : Nat) (b : Block),
    o + ((cur :: l).map Block.size).sum < W64 →
    lookupGo addr i o (cur :: l) = some (j, st, b) → b.status = .alloc →
    ∃ j2, lookupGo addr i2 o (runs cur l) = some (j2, st, b) := by
  induction l with
  | nil =>
    intro cur i i2 o addr j st b hsum h hb
    rw [lookupGo] at h
    split at h
    · rename_i heq
      injection h with h2
      injection h2 with h3 h4
      injection h4 with h5 h6
      refine ⟨i2, ?_⟩
      show lookupGo addr i2 o [cur] = _
      rw [lookupGo, if_pos heq, h5, h6]
    · rw [lookupGo] at h
      cases h
  | cons c rest ih =>
    intro cur i i2 o addr j st b hsum h hb
    rw [lookupGo] at h
    by_cases hmerge : cur.status = .free ∧ c.status = .free
    · rw [show runs cur (c :: rest) = runs (mergeB cur c) rest by simp [runs, hmerge]]
      split at h
      · rename_i heq
        injection h with h2
        injection h2 with h3 h4
        injection h4 with h5 h6
        rw [← h6, hmerge.1] at hb
        cases hb
      · rename_i hne
        rw [lookupGo] at h
        split at h
        · rename_i heq2
          injection h with h2
          injection h2 with h3 h4
          injection h4 with h5 h6
          rw [← h6, hmerge.2] at hb
          cases hb
        · rename_i hne2
          have hm : (mergeB cur c).size = cur.size + c.size := by
            show add64 cur.size c.size = _
            apply Nat.mod_eq_of_lt
            simp only [List.map_cons, List.sum_cons] at hsum
            omega
          refine ih (mergeB cur c) (i + 1) i2 o addr j st b ?_ ?_ hb
          · simp only [List.map_cons, List.sum_cons] at hsum ⊢
            rw [hm]
            omega
          · rw [lookupGo, if_neg hne, hm, ← Nat.add_assoc]
            exact h
    · rw [show runs cur (c :: rest) = cur :: runs c rest by simp [runs, hmerge]]
      split at h
      · rename_i heq
        injection h with h2
        injection h2 with h3 h4
        injection h4 with h5 h6
        refine ⟨i2, ?_⟩
        rw [lookupGo, if_pos heq, h5, h6]
      · rename_i hne
        have hsum2 : (o + cur.size) + ((c :: rest).map Block.size).sum < W64 := by
          simp only [List.map_cons, List.sum_cons] at hsum ⊢
          omega
        obtain ⟨j2, hj2⟩ := ih c (i + 1) (i2 + 1) (o + cur.size) addr j st b hsum2 h hb
        refine ⟨j2, ?_⟩
        rw [lookupGo, if_neg hne]
        exact hj2

/-- `runsM` version of `runs_lookup`. -/
theorem runsM_lookup {l : List Block} (hsum : (l.map Block.size).sum < W64)
    {addr j st : Nat} {b : Block}
    (h : lookupHeap l addr = some (j, st, b)) (hb : b.status = .alloc) :
    ∃ j2, lookupHeap (runsM l) addr = some (j2, st, b) := by
  cases l with
  | nil =>
    rw [lookupHeap, lookupGo] at h
    cases h
  | cons c rest =>
    exact runs_lookup rest c 0 0 0 addr j st b (by simpa using hsum) h hb

/-- What the `realloc_expand` loop produces: a block with the same status,
the old payload as a prefix, total registry size preserved, and the
well-formedness of each piece. -/
theorem absorbFree_spec (l : List Block) : ∀ (b : Block),
    b.data.length + HDR = b.size →
    (∀ x ∈ l, x.data.length + HDR = x.size) →
    b.size + (l.map Block.size).sum < W64 →
    ((absorbFree b l).1.data.length + HDR = (absorbFree b l).1.size) ∧
    ((absorbFree b l).1.size + (((absorbFree b l).2.map Block.size).sum)
      = b.size + (l.map Block.size).sum) ∧
    (∀ x ∈ (absorbFree b l).2, x.data.length + HDR = x.size) ∧
    b.size ≤ (absorbFree b l).1.size ∧
    (absorbFree b l).1.status = b.status ∧
    (∃ suf, (absorbFree b l).1.data = b.data ++ suf) := by
  induction l with
  | nil =>
    intro b hb hl hsum
    exact ⟨hb, by simp [absorbFree], (by intro x hx; simp [absorbFree] at hx),
      le_refl _, rfl, ⟨[], by simp [absorbFree]⟩⟩
  | cons n rest ih =>
    intro b hb hl hsum
    by_cases hn : n.status = .free
    · rw [show absorbFree b (n :: rest) = absorbFree (mergeB b n) rest by
        simp [absorbFree, hn]]
      have hnwf : n.data.length + HDR = n.size := hl n (by simp)
      have hrest : ∀ x ∈ rest, x.data.length + HDR = x.size :=
        fun x hx => hl x (by simp [hx])
      have hmsz : (mergeB b n).size = b.size + n.size := by
        show add64 b.size n.size = _
        apply Nat.mod_eq_of_lt
        simp only [List.map_cons, List.sum_cons] at hsum
        omega
      have hmd : (mergeB b n).data.length + HDR = (mergeB b n).size := by
        show (b.data ++ List.replicate HDR 0 ++ n.data).length + HDR = _
        rw [hmsz]
        simp only [List.length_append, List.length_replicate]
        omega
      have hsum2 : (mergeB b n).size + (rest.map Block.size).sum < W64 := by
        rw [hmsz]
        simp only [List.map_cons, List.sum_cons] at hsum
        omega
      obtain ⟨h1, h2, h3, h4, h5, suf, h6⟩ := ih (mergeB b n) hmd hrest hsum2
      refine ⟨h1, ?_, h3, ?_, ?_, ?_⟩
      · rw [h2, hmsz]
        simp only [List.map_cons, List.sum_cons]
        omega
      · calc b.size ≤ (mergeB b n).size := by rw [hmsz]; omega
          _ ≤ _ := h4
      · rw [h5]
        rfl
      · refine ⟨List.replicate HDR 0 ++ n.data ++ suf, ?_⟩
        rw [h6]
        show (b.data ++ List.replicate HDR 0 ++ n.data) ++ suf = _
        simp [List.append_assoc]
    · rw [show absorbFree b (n :: rest) = (b, n :: rest) by simp [absorbFree, hn]]
      exact ⟨hb, by simp, hl, le_refl _, rfl, ⟨[], by simp⟩⟩

/-- A mapped block survives the unmap filter of a different id. -/
theorem lookupMapped_filter (ms : List MBlock) (qid id0 : Nat) (hne : qid ≠ id0)
    {m : MBlock} (h : lookupMapped ms qid = some m) :
    lookupMapped (ms.filter (fun x => x.id ≠ id0)) qid = some m := by
  induction ms with
  | nil => rw [lookupMapped] at h; cases h
  | cons h0 t ih =>
    by_cases hp : h0.id = qid
    · have hh : lookupMapped (h0 :: t) qid = some h0 :=
        List.find?_cons_of_pos _ (by simp [hp])
      rw [hh] at h
      injection h with hm
      subst hm
      rw [List.filter_cons_of_pos (by simp [hp]; omega)]
      exact List.find?_cons_of_pos _ (by simp [hp])
    · have hh : lookupMapped (h0 :: t) qid = lookupMapped t qid := by
        show List.find? _ _ = _
        rw [List.find?_cons_of_neg _ (by simp [hp])]
        rfl
      rw [hh] at h
      by_cases hk : h0.id = id0
      · rw [List.filter_cons_of_neg (by simp [hk])]
        exact ih h
      · rw [List.filter_cons_of_pos (by simp [hk])]
        rw [show lookupMapped (h0 :: t.filter (fun x => x.id ≠ id0)) qid
            = lookupMapped (t.filter (fun x => x.id ≠ id0)) qid from by
          show List.find? _ _ = _
          rw [List.find?_cons_of_neg _ (by simp [hp])]
          rfl]
        exact ih h

/-- A mapped block found in a prefix is found in the extended list. -/
theorem lookupMapped_append_left (ms ms2 : List MBlock) (idv : Nat) {m : MBlock}
    (h : lookupMapped ms idv = some m) :
    lookupMapped (ms ++ ms2) idv = some m := by
  unfold lookupMapped at h ⊢
  rw [List.find?_append, h]
  rfl

/-- Writing the payload of a fresh trailing mapped block rewrites just it. -/
theorem mapped_update_append (ms : List MBlock) (m : MBlock) (qid : Nat)
    (g : MBlock → MBlock) (hid : m.id = qid) (hfresh : ∀ x ∈ ms, x.id ≠ qid) :
    (ms ++ [m]).map (fun x => if x.id = qid then g x else x) = ms ++ [g m] := by
  rw [List.map_append]
  congr 1
  · conv_rhs => rw [show ms = ms.map id from (List.map_id ms).symm]
    apply List.map_congr_left
    intro x hx
    rw [if_neg (hfresh x hx)]
    rfl
  · simp [hid]

theorem os_free_copies (s : AllocState) (p : Option Ptr) :
    (os_free s p).copies = s.copies := by
  unfold os_free
  split
  · rfl
  · split
    · split <;> rfl
    · rfl
  · split <;> rfl

theorem writePayload_copies (s : AllocState) (p : Ptr) (bytes : List Nat) :
    (writePayload s p bytes).copies = s.copies := by
  unfold writePayload
  split
  · split <;> rfl
  · rfl

/-- `os_free` (of any pointer) preserves the location, size and bytes of every
block reachable from a payload address. -/
theorem free_payload_heap (s2 : AllocState) (p2 : Option Ptr) (addrq : Nat)
    {j o : Nat} {bq : Block} (h : lookupHeap s2.heap addrq = some (j, o, bq)) :
    ∃ bq2 : Block, lookupHeap (os_free s2 p2).heap addrq = some (j, o, bq2) ∧
      bq2.data = bq.data ∧ bq2.size = bq.size := by
  rcases p2 with _ | (addr0 | idv)
  · exact ⟨bq, h, rfl, rfl⟩
  · cases hl : lookupHeap s2.heap addr0 with
    | none =>
      refine ⟨bq, ?_, rfl, rfl⟩
      simp only [os_free, hl]
      exact h
    | some t =>
      obtain ⟨k, o2, b0⟩ := t
      by_cases hst : b0.status = .alloc
      · simp only [os_free, hl, if_pos hst]
        have c1 := lookupGo_char h
        have c2 := lookupGo_char hl
        simp only [Nat.sub_zero, Nat.zero_add] at c1 c2
        by_cases hkj : k = j
        · subst hkj
          have haddr : addr0 = addrq := by
            rw [c2.2.2.2.2, c1.2.2.2.2, c2.2.2.2.1, c1.2.2.2.1]
          rw [haddr, h] at hl
          injection hl with ht
          injection ht with ht1 ht2
          injection ht2 with ht3 ht4
          refine ⟨{ b0 with status := Status.free }, ?_, by rw [← ht4], by rw [← ht4]⟩
          have hs := lookupGo_set ({ b0 with status := Status.free }) h
          simp only [Nat.sub_zero] at hs
          exact hs
        · refine ⟨bq, ?_, rfl, rfl⟩
          have hs := lookupGo_set_other (l := s2.heap) k ({ b0 with status := Status.free })
            h (by omega)
            (fun c hc => by
              rw [c2.2.2.1] at hc
              injection hc with hc2
              rw [← hc2])
          exact hs
      · refine ⟨bq, ?_, rfl, rfl⟩
        simp only [os_free, hl, if_neg hst]
        exact h
  · cases hm : lookupMapped s2.mapped idv with
    | none =>
      refine ⟨bq, ?_, rfl, rfl⟩
      simp only [os_free, hm]
      exact h
    | some m0 =>
      refine ⟨bq, ?_, rfl, rfl⟩
      simp only [os_free, hm]
      exact h

/-- `os_free` of a pointer other than a given mapped id preserves that mapped
block. -/
theorem free_payload_mapped (s2 : AllocState) (p2 : Option Ptr) (qid : Nat)
    {mq : MBlock} (h : lookupMapped s2.mapped qid = some mq)
    (hne : ∀ id0, p2 = some (Ptr.mapped id0) → qid ≠ id0) :
    lookupMapped (os_free s2 p2).mapped qid = some mq := by
  rcases p2 with _ | (addr0 | idv)
  · exact h
  · cases hl : lookupHeap s2.heap addr0 with
    | none => simp only [os_free, hl]; exact h
    | some t =>
      obtain ⟨k, o2, b0⟩ := t
      simp only [os_free, hl]
      split <;> exact h
  · cases hm : lookupMapped s2.mapped idv with
    | none => simp only [os_free, hm]; exact h
    | some m0 =>
      simp only [os_free, hm]
      exact lookupMapped_filter _ _ _ (hne idv rfl) h

/-- What `os_malloc` returns for a small non-zero request: a non-null pointer
to an ALLOC block of size at least `aligned_size` whose payload length is the
block size minus the aligned header, located on the registry at the returned
address or freshly mapped under the next id, with the ghost logs untouched. -/
theorem malloc_spec (s : AllocState) (n : Nat) (hn : n ≠ 0)
    (hwf : HeapWF s.heap) (hmwf : MappedWF s)
    (hsmall : n + szMeta + 7 < 2 ^ 31) :
    ∃ q bsz d,
      (os_malloc s n).2 = some q ∧
      alignedSz n ≤ bsz ∧ bsz < W64 ∧ d.length + HDR = bsz ∧
      (os_malloc s n).1.copies = s.copies ∧
      (os_malloc s n).1.unmaps = s.unmaps ∧
      ((∃ addr i o, q = Ptr.heap addr ∧
          lookupHeap (os_malloc s n).1.heap addr
            = some (i, o, (⟨bsz, Status.alloc, d⟩ : Block)) ∧
          (os_malloc s n).1.mapped = s.mapped ∧
          (os_malloc s n).1.nextId = s.nextId) ∨
       (q = Ptr.mapped s.nextId ∧
          lookupMapped (os_malloc s n).1.mapped s.nextId
            = some (⟨s.nextId, bsz, d⟩ : MBlock) ∧
          (os_malloc s n).1.mapped = s.mapped ++ [(⟨s.nextId, bsz, d⟩ : MBlock)] ∧
          (os_malloc s n).1.nextId = s.nextId + 1)) := by
  have hsz24 : szMeta = 24 := rfl
  have hHDR24 : HDR = 24 := by decide
  have hSP : SPLIT_PAD = 32 := by decide
  have hW64 : W64 = 18446744073709551616 := by norm_num [W64]
  have hn7 : n + 7 < W64 := by omega
  have haexp : szMeta + align8 n < 2 ^ 31 := by
    have := align8_le hn7
    omega
  have ha_exact : alignedSz n = szMeta + align8 n := alignedSz_exact haexp
  have haW : alignedSz n < W64 := by
    rw [ha_exact]
    exact lt_trans haexp (by norm_num [W64])
  have haHDR : HDR ≤ alignedSz n := by rw [ha_exact]; omega
  unfold os_malloc
  rw [if_neg hn]
  simp only [coalesce_blocks_eq]
  have hs0wf := heapWF_preallocIf s hwf (s.heap = [] ∧ alignedInt n < (131072 : Int))
  have hmap_eq : (if s.heap = [] ∧ alignedInt n < (131072 : Int) then
      ({ s with heap := [preallocBlock] } : AllocState) else s).mapped = s.mapped := by
    split <;> rfl
  have hnext_eq : (if s.heap = [] ∧ alignedInt n < (131072 : Int) then
      ({ s with heap := [preallocBlock] } : AllocState) else s).nextId = s.nextId := by
    split <;> rfl
  have hcop_eq : (if s.heap = [] ∧ alignedInt n < (131072 : Int) then
      ({ s with heap := [preallocBlock] } : AllocState) else s).copies = s.copies := by
    split <;> rfl
  have hunm_eq : (if s.heap = [] ∧ alignedInt n < (131072 : Int) then
      ({ s with heap := [preallocBlock] } : AllocState) else s).unmaps = s.unmaps := by
    split <;> rfl
  generalize hH : runsM (if s.heap = [] ∧ alignedInt n < (131072 : Int) then
    ({ s with heap := [preallocBlock] } : AllocState) else s).heap = H
  have hHwf : HeapWF H := hH ▸ runsM_wf hs0wf
  have hpos : ∀ c ∈ H, 0 < c.size := heapWF_pos hHwf
  split
  · rename_i i b heq
    obtain ⟨hib, hbf, hble⟩ := bf_some_facts heq
    have hbm : b ∈ H := List.getElem?_mem hib
    have hbwf : b.data.length + HDR = b.size := hHwf.1 b hbm
    have hbW : b.size < W64 := lt_of_le_of_lt (sizeLe_sum H b hbm) hHwf.2
    have hfound := place_found H i b (alignedSz n)
      (fun b' => { b' with status := Status.alloc }) hib hpos _ _ rfl rfl
    by_cases hsp : add64 (alignedSz n) SPLIT_PAD ≤ b.size
    · refine ⟨Ptr.heap (startOf H i + HDR), alignedSz n,
        b.data.take (alignedSz n - HDR),
        rfl, le_refl _, haW, ?_, hcop_eq, hunm_eq,
        Or.inl ⟨startOf H i + HDR, i, startOf H i, rfl, ?_, hmap_eq, hnext_eq⟩⟩
      · rw [List.length_take]
        omega
      · show lookupHeap _ _ = _
        rw [hfound, if_pos hsp]
    · refine ⟨Ptr.heap (startOf H i + HDR), b.size, b.data,
        rfl, hble, hbW, hbwf, hcop_eq, hunm_eq,
        Or.inl ⟨startOf H i + HDR, i, startOf H i, rfl, ?_, hmap_eq, hnext_eq⟩⟩
      show lookupHeap _ _ = _
      rw [hfound, if_neg hsp]
  · rename_i heq
    split
    · rename_i last hlast
      split
      · rename_i hfree
        have hlm : last ∈ H := List.mem_of_mem_getLast? hlast
        have hlwf : last.data.length + HDR = last.size := hHwf.1 last hlm
        have hlidx : H[H.length - 1]? = some last := by
          rw [← List.getLast?_eq_getElem?]
          exact hlast
        have hlsm : last.size < alignedSz n := by
          by_contra hge
          exact bf_none_facts heq (H.length - 1) last hlidx ⟨hfree, by omega⟩
        have hreq : sub64 (alignedSz n) last.size
            = alignedSz n - last.size := sub64_eq (by omega) haW
        have hlbsz : add64 last.size (sub64 (alignedSz n) last.size)
            = alignedSz n := by
          rw [hreq, add64_eq (by omega)]
          omega
        have hnosplit : ¬ add64 (alignedSz n) SPLIT_PAD
            ≤ add64 last.size (sub64 (alignedSz n) last.size) := by
          rw [hlbsz, hSP, add64_eq (by omega)]
          omega
        have hfound := place_found_last H last
          (⟨add64 last.size (sub64 (alignedSz n) last.size), last.status,
            last.data ++ List.replicate (sub64 (alignedSz n) last.size) 0⟩
            : Block)
          (alignedSz n)
          (fun b' => { b' with status := Status.alloc })
          hlast hpos _ _ _ rfl rfl rfl
        refine ⟨Ptr.heap (startOf H (H.length - 1) + HDR), alignedSz n,
          last.data ++ List.replicate (sub64 (alignedSz n) last.size) 0,
          rfl, le_refl _, haW, ?_, hcop_eq, hunm_eq,
          Or.inl ⟨startOf H (H.length - 1) + HDR, H.length - 1,
            startOf H (H.length - 1), rfl, ?_, hmap_eq, hnext_eq⟩⟩
        · simp only [List.length_append, List.length_replicate]
          rw [hreq]
          omega
        · show lookupHeap _ _ = _
          rw [hfound, if_neg hnosplit]
          simp only [hlbsz]
      · split
        · rename_i hlt
          have hfound := append_found H
            (⟨alignedSz n, .alloc, List.replicate (alignedSz n - HDR) 0⟩ : Block) hpos
          refine ⟨Ptr.heap (heapEnd H + HDR), alignedSz n,
            List.replicate (alignedSz n - HDR) 0,
            rfl, le_refl _, haW, ?_, hcop_eq, hunm_eq,
            Or.inl ⟨heapEnd H + HDR, H.length, heapEnd H, rfl, ?_, hmap_eq, hnext_eq⟩⟩
          · rw [List.length_replicate]
            omega
          · show lookupHeap _ _ = _
            rw [hfound]
        · rename_i hge
          refine ⟨Ptr.mapped s.nextId, alignedSz n,
            List.replicate (alignedSz n - HDR) 0,
            ?_, le_refl _, haW, ?_, hcop_eq, hunm_eq,
            Or.inr ⟨rfl, ?_, ?_, ?_⟩⟩
          · show some (Ptr.mapped _) = some (Ptr.mapped s.nextId)
            rw [hnext_eq]
          · rw [List.length_replicate]
            omega
          · show lookupMapped (_ ++ [_]) s.nextId = _
            simp only [hmap_eq, hnext_eq]
            exact lookupMapped_append s.mapped _ s.nextId rfl
              (fun x hx => by have := hmwf x hx; omega)
          · show _ ++ [_] = s.mapped ++ [_]
            simp only [hmap_eq, hnext_eq]
          · show _ + 1 = s.nextId + 1
            simp only [hnext_eq]
    · rename_i hnone
      split
      · rename_i hlt
        exfalso
        have hHnil : H = [] := List.getLast?_eq_none_iff.mp hnone
        have hs0nil : (if s.heap = [] ∧ alignedInt n < (131072 : Int) then
            ({ s with heap := [preallocBlock] } : AllocState) else s).heap = [] := by
          apply (runsM_eq_nil_iff _).mp
          rw [hH, hHnil]
        by_cases hc : s.heap = [] ∧ alignedInt n < (131072 : Int)
        · rw [if_pos hc] at hs0nil
          simp at hs0nil
        · rw [if_neg hc] at hs0nil
          have hai : ¬ alignedInt n < (131072 : Int) :=
            fun h2 => hc ⟨hs0nil, h2⟩
          rw [alignedInt_exact haexp] at hai
          have hMT : MMAP_THRESHOLD = 131072 := rfl
          rw [ha_exact, hMT] at hlt
          exact hai (by exact_mod_cast hlt)
      · refine ⟨Ptr.mapped s.nextId, alignedSz n,
          List.replicate (alignedSz n - HDR) 0,
          ?_, le_refl _, haW, ?_, hcop_eq, hunm_eq,
          Or.inr ⟨rfl, ?_, ?_, ?_⟩⟩
        · show some (Ptr.mapped _) = some (Ptr.mapped s.nextId)
          rw [hnext_eq]
        · rw [List.length_replicate]
          omega
        · show lookupMapped (_ ++ [_]) s.nextId = _
          simp only [hmap_eq, hnext_eq]
          exact lookupMapped_append s.mapped _ s.nextId rfl
            (fun x hx => by have := hmwf x hx; omega)
        · show _ ++ [_] = s.mapped ++ [_]
          simp only [hmap_eq, hnext_eq]
        · show _ + 1 = s.nextId + 1
          simp only [hnext_eq]

/-- C3 (amended): a reallocation that returns a non-null pointer preserves
the payload prefix - the first `min(old_payload_size, new_payload_size)`
bytes of the new payload equal the bytes the old payload held - and in the
mapped-block move case the single `memcpy` copies exactly
`new_block->size - aligned_header_size` bytes, the NEW payload length (the
`copies` log grows by it), not `min(old_block, new_block) - aligned_header_size`. -/
theorem c3_theorem (s : AllocState) (p : Ptr) (size : Nat) (old : List Nat)
    (hsz : size ≠ 0)
    (hwf : HeapWF s.heap) (hmwf : MappedWF s)
    (hold : payloadAt s p = some old)
    (hsmall : size + szMeta + 7 < 2 ^ 31) :
    ∀ q, (os_realloc s (some p) size).2 = some q →
    ∃ d, payloadAt (os_realloc s (some p) size).1 q = some d ∧
      (∀ j, j < old.length → j < d.length → d[j]? = old[j]?) ∧
      (∀ idv m, p = Ptr.mapped idv → lookupMapped s.mapped idv = some m →
        m.size ≠ alignedR size →
        (os_realloc s (some p) size).1.copies = s.copies ++ [d.length] ∧
        alignedSz size ≤ d.length + HDR) := by
  intro q hq
  have hsz24 : szMeta = 24 := rfl
  have hHDR24 : HDR = 24 := by decide
  have hW64 : W64 = 18446744073709551616 := by norm_num [W64]
  have hn7 : size + 7 < W64 := by omega
  have haexp : szMeta + align8 size < 2 ^ 31 := by
    have := align8_le hn7
    omega
  have ha_exact : alignedSz size = szMeta + align8 size := alignedSz_exact haexp
  cases p with
  | mapped idv =>
    have hold2 : ∃ m, lookupMapped s.mapped idv = some m ∧ m.data = old := by
      simpa [payloadAt] using hold
    obtain ⟨m, hm, hmd⟩ := hold2
    simp only [os_realloc] at hq ⊢
    rw [if_neg hsz] at hq ⊢
    simp only [hm] at hq ⊢
    by_cases heqsz : m.size = alignedR size
    · rw [if_pos heqsz] at hq ⊢
      injection hq with hq2
      subst hq2
      refine ⟨old, hold, fun j _ _ => rfl, ?_⟩
      intro idv2 m2 hp hm2 hne2
      injection hp with hid
      subst hid
      rw [hm] at hm2
      injection hm2 with hm3
      subst hm3
      exact absurd heqsz hne2
    · rw [if_neg heqsz] at hq ⊢
      obtain ⟨q0, bsz, d0, hr2, hge, hltW, hlen0, hcop0, hunm0, hdisj⟩ :=
        malloc_spec s size hsz hwf hmwf hsmall
      simp only [hr2] at hq ⊢
      injection hq with hq2
      subst hq2
      have hHDRb : HDR ≤ bsz := le_trans (by rw [ha_exact]; omega) hge
      have hd0len : d0.length = bsz - HDR := by omega
      have hmfind : List.find? (fun x => decide (x.id = idv)) s.mapped = some m := hm
      have hmmem : m ∈ s.mapped := List.mem_of_find?_eq_some hmfind
      have hmid : m.id = idv := by simpa using List.find?_some hmfind
      have hidlt : idv < s.nextId := hmid ▸ hmwf m hmmem
      rcases hdisj with ⟨addr0, i0, o0, hq0, hlook0, hmapeq0, hnext0⟩ |
        ⟨hq0, hlookm0, hmapeq0, hnext0⟩
      · subst hq0
        have hpbs : ptrBlockSize (os_malloc s size).1 (Ptr.heap addr0) = bsz := by
          simp only [ptrBlockSize]
          rw [hlook0]
          rfl
        have hcnt : sub64 (ptrBlockSize (os_malloc s size).1 (Ptr.heap addr0)) HDR
            = bsz - HDR := by
          rw [hpbs]
          exact sub64_eq hHDRb hltW
        simp only [hcnt]
        have hbytes : (padTake m.data (bsz - HDR)).length = bsz - HDR :=
          padTake_length _ _
        have hstate : writePayload (os_malloc s size).1 (Ptr.heap addr0)
              (padTake m.data (bsz - HDR))
            = { (os_malloc s size).1 with
                heap := (os_malloc s size).1.heap.set i0 (⟨bsz, Status.alloc, padTake m.data (bsz - HDR)⟩ : Block) } := by
          simp only [writePayload, hlook0]
          rw [hbytes, show bsz - HDR = d0.length from hd0len.symm, List.drop_length,
            List.append_nil]
        have hlook2 : lookupHeap (writePayload (os_malloc s size).1 (Ptr.heap addr0)
              (padTake m.data (bsz - HDR))).heap addr0
            = some (i0, o0, (⟨bsz, Status.alloc, padTake m.data (bsz - HDR)⟩ : Block)) := by
          rw [hstate]
          have := lookupGo_set ((⟨bsz, Status.alloc, padTake m.data (bsz - HDR)⟩ : Block))
            hlook0
          simpa [lookupHeap] using this
        obtain ⟨bq2, hfq, hfdata, hfsize⟩ :=
          free_payload_heap _ (some (Ptr.mapped idv)) addr0 hlook2
        refine ⟨padTake m.data (bsz - HDR), ?_, ?_, ?_⟩
        · simp only [payloadAt]
          rw [hfq]
          simp only [Option.map_some']
          rw [hfdata]
        · intro j hj1 hj2
          rw [padTake_length] at hj2
          rw [padTake_getElem m.data (bsz - HDR) j (by rw [hmd]; exact hj1) hj2, hmd]
        · intro idv2 m2 hp hm2 hne2
          constructor
          · simp only [os_free_copies, writePayload_copies, hcop0]
            rw [hbytes]
          · rw [hbytes]
            omega
      · subst hq0
        have hpbs : ptrBlockSize (os_malloc s size).1 (Ptr.mapped s.nextId) = bsz := by
          simp only [ptrBlockSize]
          rw [hlookm0]
          rfl
        have hcnt : sub64 (ptrBlockSize (os_malloc s size).1 (Ptr.mapped s.nextId)) HDR
            = bsz - HDR := by
          rw [hpbs]
          exact sub64_eq hHDRb hltW
        simp only [hcnt]
        have hbytes : (padTake m.data (bsz - HDR)).length = bsz - HDR :=
          padTake_length _ _
        have hfresh : ∀ x ∈ s.mapped, x.id ≠ s.nextId :=
          fun x hx => by have := hmwf x hx; omega
        have hstate : writePayload (os_malloc s size).1 (Ptr.mapped s.nextId)
              (padTake m.data (bsz - HDR))
            = { (os_malloc s size).1 with
                mapped := s.mapped ++ [(⟨s.nextId, bsz, padTake m.data (bsz - HDR)⟩ : MBlock)] } := by
          simp only [writePayload]
          rw [hmapeq0]
          rw [mapped_update_append s.mapped (⟨s.nextId, bsz, d0⟩ : MBlock) s.nextId
            _ rfl hfresh]
          rw [hbytes, show bsz - HDR = d0.length from hd0len.symm]
          simp only [List.drop_length, List.append_nil]
        have hlookq2 : lookupMapped (writePayload (os_malloc s size).1
              (Ptr.mapped s.nextId) (padTake m.data (bsz - HDR))).mapped s.nextId
            = some (⟨s.nextId, bsz, padTake m.data (bsz - HDR)⟩ : MBlock) := by
          rw [hstate]
          exact lookupMapped_append s.mapped _ s.nextId rfl hfresh
        have hfinal := free_payload_mapped _ (some (Ptr.mapped idv)) s.nextId hlookq2
          (fun id0 hid0 => by
            injection hid0 with h2
            injection h2 with h3
            omega)
        refine ⟨padTake m.data (bsz - HDR), ?_, ?_, ?_⟩
        · simp only [payloadAt]
          rw [hfinal]
          rfl
        · intro j hj1 hj2
          rw [padTake_length] at hj2
          rw [padTake_getElem m.data (bsz - HDR) j (by rw [hmd]; exact hj1) hj2, hmd]
        · intro idv2 m2 hp hm2 hne2
          constructor
          · simp only [os_free_copies, writePayload_copies, hcop0]
            rw [hbytes]
          · rw [hbytes]
            omega
  | heap addr =>
    have hold2 : ∃ t, lookupHeap s.heap addr = some t ∧ t.2.2.data = old := by
      simpa [payloadAt] using hold
    obtain ⟨⟨i, o, b⟩, hlook, hbdata⟩ := hold2
    replace hbdata : b.data = old := hbdata
    simp only [os_realloc] at hq ⊢
    rw [if_neg hsz] at hq ⊢
    simp only [hlook] at hq ⊢
    by_cases hfree : b.status = .free
    · rw [if_pos hfree] at hq
      cases hq
    · rw [if_neg hfree] at hq ⊢
      have hballoc : b.status = .alloc := by
        cases hb2 : b.status
        · exact absurd hb2 hfree
        · rfl
      by_cases heqsz : b.size = alignedR size
      · rw [if_pos heqsz] at hq ⊢
        injection hq with hq2
        subst hq2
        refine ⟨old, hold, fun j _ _ => rfl, ?_⟩
        intro idv2 m2 hp
        exact Ptr.noConfusion hp
      · rw [if_neg heqsz] at hq ⊢
        by_cases hshr : alignedR size ≤ b.size ∧ add64 (alignedR size) SPLIT_PAD ≤ b.size
        · rw [if_pos hshr] at hq ⊢
          injection hq with hq2
          subst hq2
          have hchar := lookupGo_char hlook
          simp only [Nat.sub_zero, Nat.zero_add] at hchar
          obtain ⟨-, hilen, hidx, host, haddr⟩ := hchar
          have hposT : ∀ c ∈ s.heap.take i, 0 < c.size :=
            fun c hc => heapWF_pos hwf c (List.take_subset _ _ hc)
          have hdec : replaceAt s.heap i (split_block b (alignedR size))
              = s.heap.take i ++ (⟨alignedR size, b.status, b.data.take (alignedR size - HDR)⟩ : Block) :: ((⟨sub64 b.size (alignedR size), Status.free, b.data.drop (alignedR size)⟩ : Block) :: s.heap.drop (i + 1)) := by
            simp [replaceAt, split_block]
          have hfnd := found_at (s.heap.take i)
            ((⟨sub64 b.size (alignedR size), Status.free, b.data.drop (alignedR size)⟩ : Block) :: s.heap.drop (i + 1))
            (⟨alignedR size, b.status, b.data.take (alignedR size - HDR)⟩ : Block)
            hposT addr (by rw [haddr, host])
          refine ⟨b.data.take (alignedR size - HDR), ?_, ?_, ?_⟩
          · simp only [payloadAt]
            rw [hdec, hfnd]
            rfl
          · intro j hj1 hj2
            rw [List.length_take] at hj2
            rw [List.getElem?_take, if_pos (by omega), hbdata]
          · intro idv2 m2 hp
            exact Ptr.noConfusion hp
        · rw [if_neg hshr] at hq ⊢
          simp only [coalesce_blocks_eq] at hq ⊢
          obtain ⟨j2, hlook1⟩ := runsM_lookup hwf.2 hlook hballoc
          simp only [hlook1] at hq ⊢
          have hH1wf : HeapWF (runsM s.heap) := runsM_wf hwf
          have hchar := lookupGo_char hlook1
          simp only [Nat.sub_zero, Nat.zero_add] at hchar
          obtain ⟨-, hjlen, hjdx, host, haddr⟩ := hchar
          have hdecH : runsM s.heap
              = (runsM s.heap).take j2 ++ b :: (runsM s.heap).drop (j2 + 1) :=
            eq_take_cons_drop hjdx
          have hsumdec : ((runsM s.heap).map Block.size).sum
              = (((runsM s.heap).take j2).map Block.size).sum + (b.size + (((runsM s.heap).drop (j2 + 1)).map Block.size).sum) := by
            conv_lhs => rw [hdecH]
            simp only [List.map_append, List.map_cons, List.sum_append, List.sum_cons]
          have hbwf1 : b.data.length + HDR = b.size := hH1wf.1 b (List.getElem?_mem hjdx)
          have hdwf : ∀ x ∈ (runsM s.heap).drop (j2 + 1), x.data.length + HDR = x.size :=
            fun x hx => hH1wf.1 x (List.drop_subset _ _ hx)
          have habsum : b.size + (((runsM s.heap).drop (j2 + 1)).map Block.size).sum < W64 := by
            have h2 := hH1wf.2
            omega
          obtain ⟨hex1wf, hexsum, hex2wf, hexge, hexst, suf, hexdata⟩ :=
            absorbFree_spec ((runsM s.heap).drop (j2 + 1)) b hbwf1 hdwf habsum
          cases hex : absorbFree b ((runsM s.heap).drop (j2 + 1)) with
          | mk e1 e2 =>
          simp only [hex] at hq hex1wf hexsum hex2wf hexge hexst hexdata ⊢
          have hposT : ∀ c ∈ (runsM s.heap).take j2, 0 < c.size :=
            fun c hc => heapWF_pos hH1wf c (List.take_subset _ _ hc)
          by_cases hfit : alignedR size ≤ e1.size
          · rw [if_pos hfit] at hq ⊢
            by_cases hsp2 : add64 (alignedR size) SPLIT_PAD ≤ e1.size
            · rw [if_pos hsp2] at hq ⊢
              injection hq with hq2
              subst hq2
              have hsde : (runsM s.heap).take j2 ++ split_block e1 (alignedR size) ++ e2
                  = (runsM s.heap).take j2 ++ (⟨alignedR size, e1.status, e1.data.take (alignedR size - HDR)⟩ : Block) :: ((⟨sub64 e1.size (alignedR size), Status.free, e1.data.drop (alignedR size)⟩ : Block) :: e2) := by
                simp [split_block, List.append_assoc]
              have hfnd := found_at ((runsM s.heap).take j2)
                ((⟨sub64 e1.size (alignedR size), Status.free, e1.data.drop (alignedR size)⟩ : Block) :: e2)
                (⟨alignedR size, e1.status, e1.data.take (alignedR size - HDR)⟩ : Block)
                hposT addr (by rw [haddr, host])
              refine ⟨e1.data.take (alignedR size - HDR), ?_, ?_, ?_⟩
              · simp only [payloadAt]
                rw [hsde, hfnd]
                rfl
              · intro j hj1 hj2
                rw [List.length_take] at hj2
                rw [List.getElem?_take, if_pos (by omega), hexdata]
                rw [List.getElem?_append_left (by rw [hbdata]; exact hj1), hbdata]
              · intro idv2 m2 hp
                exact Ptr.noConfusion hp
            · rw [if_neg hsp2] at hq ⊢
              injection hq with hq2
              subst hq2
              have hfnd := found_at ((runsM s.heap).take j2) e2 e1 hposT addr
                (by rw [haddr, host])
              refine ⟨e1.data, ?_, ?_, ?_⟩
              · simp only [payloadAt]
                rw [hfnd]
                rfl
              · intro j hj1 hj2
                rw [hexdata]
                rw [List.getElem?_append_left (by rw [hbdata]; exact hj1), hbdata]
              · intro idv2 m2 hp
                exact Ptr.noConfusion hp
          · rw [if_neg hfit] at hq ⊢
            have hwf2 : HeapWF ((runsM s.heap).take j2 ++ e1 :: e2) := by
              constructor
              · intro x hx
                rcases List.mem_append.mp hx with hx | hx
                · exact hH1wf.1 x (List.take_subset _ _ hx)
                · rcases List.mem_cons.mp hx with hx | hx
                  · rw [hx]
                    exact hex1wf
                  · exact hex2wf x hx
              · show ((((runsM s.heap).take j2 ++ e1 :: e2)).map Block.size).sum < W64
                simp only [List.map_append, List.map_cons, List.sum_append, List.sum_cons]
                have h2 := hH1wf.2
                omega
            obtain ⟨q0, bsz, d0, hr2, hge, hltW, hlen0, hcop0, hunm0, hdisj⟩ :=
              malloc_spec { s with heap := (runsM s.heap).take j2 ++ e1 :: e2 } size
                hsz hwf2 hmwf hsmall
            simp only [hr2] at hq ⊢
            injection hq with hq2
            subst hq2
            have hHDRb : HDR ≤ bsz := le_trans (by rw [ha_exact]; omega) hge
            have hd0len : d0.length = bsz - HDR := by omega
            have holdlen : j2 < 42 ∨ True := Or.inr trivial
            rcases hdisj with ⟨addr0, i0, o0, hq0, hlook0, hmapeq0, hnext0⟩ |
              ⟨hq0, hlookm0, hmapeq0, hnext0⟩
            · subst hq0
              have hpbs : ptrBlockSize (os_malloc { s with heap := (runsM s.heap).take j2 ++ e1 :: e2 } size).1 (Ptr.heap addr0) = bsz := by
                simp only [ptrBlockSize]
                rw [hlook0]
                rfl
              have hcnt : sub64 (ptrBlockSize (os_malloc { s with heap := (runsM s.heap).take j2 ++ e1 :: e2 } size).1 (Ptr.heap addr0)) HDR = bsz - HDR := by
                rw [hpbs]
                exact sub64_eq hHDRb hltW
              simp only [hcnt]
              have hbytes : (padTake e1.data (bsz - HDR)).length = bsz - HDR :=
                padTake_length _ _
              have hstate : writePayload (os_malloc { s with heap := (runsM s.heap).take j2 ++ e1 :: e2 } size).1 (Ptr.heap addr0) (padTake e1.data (bsz - HDR))
                  = { (os_malloc { s with heap := (runsM s.heap).take j2 ++ e1 :: e2 } size).1 with
                      heap := (os_malloc { s with heap := (runsM s.heap).take j2 ++ e1 :: e2 } size).1.heap.set i0 (⟨bsz, Status.alloc, padTake e1.data (bsz - HDR)⟩ : Block) } := by
                simp only [writePayload, hlook0]
                rw [hbytes, show bsz - HDR = d0.length from hd0len.symm, List.drop_length,
                  List.append_nil]
              have hlook2 : lookupHeap (writePayload (os_malloc { s with heap := (runsM s.heap).take j2 ++ e1 :: e2 } size).1 (Ptr.heap addr0) (padTake e1.data (bsz - HDR))).heap addr0
                  = some (i0, o0, (⟨bsz, Status.alloc, padTake e1.data (bsz - HDR)⟩ : Block)) := by
                rw [hstate]
                have := lookupGo_set ((⟨bsz, Status.alloc, padTake e1.data (bsz - HDR)⟩ : Block)) hlook0
                simpa [lookupHeap] using this
              obtain ⟨bq2, hfq, hfdata, hfsize⟩ :=
                free_payload_heap _ (some (Ptr.heap addr)) addr0 hlook2
              refine ⟨padTake e1.data (bsz - HDR), ?_, ?_, ?_⟩
              · simp only [payloadAt]
                rw [hfq]
                simp only [Option.map_some']
                rw [hfdata]
              · intro j hj1 hj2
                rw [padTake_length] at hj2
                rw [padTake_getElem e1.data (bsz - HDR) j ?_ hj2, hexdata]
                · rw [List.getElem?_append_left (by rw [hbdata]; exact hj1), hbdata]
                · rw [hexdata]
                  simp only [List.length_append]
                  rw [hbdata]
                  omega
              · intro idv2 m2 hp
                exact Ptr.noConfusion hp
            · have hq0' : q0 = Ptr.mapped s.nextId := hq0
              subst hq0'
              have hlookm0' : lookupMapped (os_malloc { s with heap := (runsM s.heap).take j2 ++ e1 :: e2 } size).1.mapped s.nextId = some (⟨s.nextId, bsz, d0⟩ : MBlock) := hlookm0
              have hmapeq0' : (os_malloc { s with heap := (runsM s.heap).take j2 ++ e1 :: e2 } size).1.mapped = s.mapped ++ [(⟨s.nextId, bsz, d0⟩ : MBlock)] := hmapeq0
              have hpbs : ptrBlockSize (os_malloc { s with heap := (runsM s.heap).take j2 ++ e1 :: e2 } size).1 (Ptr.mapped s.nextId) = bsz := by
                simp only [ptrBlockSize]
                rw [hlookm0']
                rfl
              have hcnt : sub64 (ptrBlockSize (os_malloc { s with heap := (runsM s.heap).take j2 ++ e1 :: e2 } size).1 (Ptr.mapped s.nextId)) HDR = bsz - HDR := by
                rw [hpbs]
                exact sub64_eq hHDRb hltW
              simp only [hcnt]
              have hbytes : (padTake e1.data (bsz - HDR)).length = bsz - HDR :=
                padTake_length _ _
              have hfresh : ∀ x ∈ s.mapped, x.id ≠ s.nextId :=
                fun x hx => by have := hmwf x hx; omega
              have hstate : writePayload (os_malloc { s with heap := (runsM s.heap).take j2 ++ e1 :: e2 } size).1 (Ptr.mapped s.nextId) (padTake e1.data (bsz - HDR))
                  = { (os_malloc { s with heap := (runsM s.heap).take j2 ++ e1 :: e2 } size).1 with
                      mapped := s.mapped ++ [(⟨s.nextId, bsz, padTake e1.data (bsz - HDR)⟩ : MBlock)] } := by
                simp only [writePayload]
                rw [hmapeq0']
                rw [mapped_update_append s.mapped (⟨s.nextId, bsz, d0⟩ : MBlock) s.nextId
                  _ rfl hfresh]
                rw [hbytes, show bsz - HDR = d0.length from hd0len.symm]
                simp only [List.drop_length, List.append_nil]
              have hlookq2 : lookupMapped (writePayload (os_malloc { s with heap := (runsM s.heap).take j2 ++ e1 :: e2 } size).1 (Ptr.mapped s.nextId) (padTake e1.data (bsz - HDR))).mapped s.nextId
                  = some (⟨s.nextId, bsz, padTake e1.data (bsz - HDR)⟩ : MBlock) := by
                rw [hstate]
                exact lookupMapped_append s.mapped _ s.nextId rfl hfresh
              have hfinal := free_payload_mapped _ (some (Ptr.heap addr)) s.nextId hlookq2
                (fun id0 hid0 => by
                  injection hid0 with h2
                  exact Ptr.noConfusion h2)
              refine ⟨padTake e1.data (bsz - HDR), ?_, ?_, ?_⟩
              · simp only [payloadAt]
                rw [hfinal]
                rfl
              · intro j hj1 hj2
                rw [padTake_length] at hj2
                rw [padTake_getElem e1.data (bsz - HDR) j ?_ hj2, hexdata]
                · rw [List.getElem?_append_left (by rw [hbdata]; exact hj1), hbdata]
                · rw [hexdata]
                  simp only [List.length_append]
                  rw [hbdata]
                  omega
              · intro idv2 m2 hp
                exact Ptr.noConfusion hp

/-- Witness for C3: reallocating a 128 KiB mapped block (id 0) down to 8
bytes moves it to a heap block at offset 0 (payload pointer 24), preserving
the prefix; the copy log records the new payload length. -/
theorem c3_witness :
    ∃ d, payloadAt (os_realloc (⟨[], [⟨0, 131072, List.replicate 131048 0⟩], 1, [], [], false⟩ : AllocState) (some (Ptr.mapped 0)) 8).1 (Ptr.heap 24) = some d ∧
      (∀ j, j < (List.replicate 131048 (0 : Nat)).length → j < d.length →
        d[j]? = (List.replicate 131048 (0 : Nat))[j]?) ∧
      (∀ idv m, Ptr.mapped 0 = Ptr.mapped idv →
        lookupMapped [(⟨0, 131072, List.replicate 131048 0⟩ : MBlock)] idv = some m →
        m.size ≠ alignedR 8 →
        (os_realloc (⟨[], [⟨0, 131072, List.replicate 131048 0⟩], 1, [], [], false⟩ : AllocState) (some (Ptr.mapped 0)) 8).1.copies = [] ++ [d.length] ∧
        alignedSz 8 ≤ d.length + HDR) :=
  c3_theorem (⟨[], [⟨0, 131072, List.replicate 131048 0⟩], 1, [], [], false⟩ : AllocState)
    (Ptr.mapped 0) 8 (List.replicate 131048 0) (by decide)
    ⟨fun b hb => absurd hb (List.not_mem_nil b), by norm_num [W64]⟩
    (by intro mb hmb; rw [List.mem_singleton] at hmb; subst hmb; decide)
    rfl
    (by decide)
    (Ptr.heap 24)
    (by decide)

end Osmem
